import Mathlib

/-!
# Graph k-coloring by reduction to SAT (`hw1/coloring.h`)

A shallow embedding of the classes `Graph` and `Coloring` of `hw1/coloring.h`
and of the drivers `hw1/main.cc` and `hw1/test.cc`.

* C++ `int` values are modelled by the unbounded `Int`: node indices, color indices and
  variable indices `color * nodeCount + node` are taken as mathematical integers. The
  counter of a loop `for (int i = 0; i < n; i++)` runs over `intRange n`.
* The variable index of line 190 is the one place where `int` arithmetic can leave the
  32-bit range. It has a second embedding, `Machine.getNodeHasColorVar`, that wraps the
  product and the sum to 32 bits (`int32`), and the member functions are repeated over
  it in the namespace `Machine`. The two embeddings agree whenever
  `nodeCount * k <= 2^31` (lemmas `machine_*_eq_model`); what is stated about index
  values and index ranges is stated over `Machine`.
* A failing `assert`, an out-of-range `operator[]` and an exception are all
  modelled by the result `none`.
* The SAT engine (`minisat/core/Solver.h`) is an external collaborator: its
  state is modelled as the number of allocated variables, the list of asserted
  clauses and the last model; its search is a parameter `oracle`, constrained
  only by `OracleCorrect`.
* The `while (m_solver.solve())` loop of `givemeAllColoring` takes a fuel
  argument; running out of fuel is the result `none`.
-/

namespace Hw1

/-- The values taken by the counter of `for (int i = 0; i < n; i++)`. -/
def intRange (n : Int) : List Int :=
  (List.range n.toNat).map Int.ofNat

/-! ## Class `Graph` -/

/-- The two data members of `class Graph`. -/
structure Graph where
  m_nNumberOfNodes : Int
  m_graph : List (List Int)
  deriving DecidableEq, Repr

namespace Graph

/-- The constructor `Graph(int nNumberOfNodes)`. `m_graph.resize` takes a `size_t`: a
negative argument converts to a size above `max_size()` and the call throws. -/
def new (nNumberOfNodes : Int) : Option Graph :=
  if 0 ≤ nNumberOfNodes then
    some ⟨nNumberOfNodes, List.replicate nNumberOfNodes.toNat []⟩
  else none

/-- `int getNumberOfNodes() const`. -/
def getNumberOfNodes (g : Graph) : Int :=
  g.m_nNumberOfNodes

/-- `vector<int> getEdgesForNode(int node) const`. The second assertion compares an
`int` with a `size_t`, so a negative `node` converts to a huge unsigned value and fails it. -/
def getEdgesForNode (g : Graph) (node : Int) : Option (List Int) :=
  if node < g.m_nNumberOfNodes ∧ (0 ≤ node ∧ node < (g.m_graph.length : Int)) then
    g.m_graph[node.toNat]?
  else none

/-- The effect of `std::vector::resize(n)` on the adjacency vector. -/
def resize (v : List (List Int)) (n : Nat) : List (List Int) :=
  v.take n ++ List.replicate (n - v.length) []

/-- `void addEdge(int n1, int n2)`. The test `m_graph.size() <= n1` is an unsigned
comparison (a negative `n1` passes it), `resize(n1+1)` with a negative argument throws,
and `m_graph[n1]` outside the vector is undefined. -/
def addEdge (g : Graph) (n1 n2 : Int) : Option Graph :=
  if ¬ (n1 < g.m_nNumberOfNodes ∧ n2 < g.m_nNumberOfNodes) then none
  else if ¬ (n1 ≤ n2) then none
  else
    let resized : Option (List (List Int)) :=
      if n1 < 0 ∨ (g.m_graph.length : Int) ≤ n1 then
        if 0 ≤ n1 + 1 then some (resize g.m_graph (n1 + 1).toNat) else none
      else some g.m_graph
    match resized with
    | none => none
    | some v =>
      if 0 ≤ n1 ∧ n1.toNat < v.length then
        some ⟨g.m_nNumberOfNodes, v.modify (fun l => l ++ [n2]) n1.toNat⟩
      else none

/-- A sequence of calls `g.addEdge(a, b)`, in order (as in `main.cc`, lines 20-23). -/
def addEdges (g : Graph) (edges : List (Int × Int)) : Option Graph :=
  edges.foldlM (fun g e => g.addEdge e.1 e.2) g

/-- `Graph g(nodeCount)` followed by the calls `g.addEdge(a, b)` for the listed pairs. -/
def build (nodeCount : Int) (edges : List (Int × Int)) : Option Graph :=
  (Graph.new nodeCount).bind (fun g => g.addEdges edges)

end Graph

/-! ## The SAT collaborator -/

/-- The three truth values of `Minisat::lbool`. -/
inductive lbool where
  | l_True
  | l_False
  | l_Undef
  deriving DecidableEq, Repr

/-- The `lbool` of a Boolean. -/
def lbool.ofBool (b : Bool) : lbool :=
  if b then lbool.l_True else lbool.l_False

/-- A literal `Minisat::Lit`: a variable and a sign, `sign = true` for the negated variable. -/
structure Lit where
  var : Int
  sign : Bool
  deriving DecidableEq, Repr

/-- `Minisat::mkLit(var, sign)`. -/
def mkLit (var : Int) (sign : Bool) : Lit :=
  ⟨var, sign⟩

/-- Modelled from the spec: the state of the SAT collaborator `Minisat::Solver`, whose
source is not part of `hw1`: the number of variables created by `newVariable`, the clauses
asserted by `addClause`, and the model left by the last successful `solve`. -/
structure Solver where
  nVars : Nat
  clauses : List (List Lit)
  model : List lbool
  deriving DecidableEq, Repr

/-- The value of a literal under a total assignment (a variable outside it reads false). -/
def Lit.holds (a : List Bool) (l : Lit) : Bool :=
  (a.getD l.var.toNat false) != l.sign

/-- A clause is a disjunction of literals. -/
def clauseHolds (a : List Bool) (c : List Lit) : Bool :=
  c.any (Lit.holds a)

/-- An assignment satisfies a clause set when it satisfies each clause. -/
def satisfies (a : List Bool) (cs : List (List Lit)) : Bool :=
  cs.all (clauseHolds a)

/-- What is assumed of `solve()`: an answer `some m` is a total assignment of the
allocated variables that satisfies every asserted clause, and the answer `none` is given
only when no such assignment exists. -/
def OracleCorrect (oracle : Nat → List (List Lit) → Option (List Bool)) : Prop :=
  ∀ n cs, (∀ m, oracle n cs = some m → m.length = n ∧ satisfies m cs = true) ∧
    (oracle n cs = none → ∀ m : List Bool, m.length = n → satisfies m cs = false)

namespace Solver

/-- Modelled from the spec: a solver with no variable and no clause (`m_solver()`). -/
def new : Solver :=
  ⟨0, [], []⟩

/-- Modelled from the spec: `newVariable()` allocates a fresh variable. -/
def newVar (s : Solver) : Solver :=
  { s with nVars := s.nVars + 1 }

/-- Modelled from the spec: `addClause(literals)` asserts a disjunction. -/
def addClause (s : Solver) (ps : List Lit) : Solver :=
  { s with clauses := s.clauses ++ [ps] }

/-- Modelled from the spec: `solve()` returns whether the asserted clause set is
satisfiable, and leaves the satisfying assignment it found as the model. -/
def solve (oracle : Nat → List (List Lit) → Option (List Bool)) (s : Solver) :
    Bool × Solver :=
  match oracle s.nVars s.clauses with
  | some m => (true, { s with model := m.map lbool.ofBool })
  | none => (false, { s with model := [] })

/-- Modelled from the spec: `modelValueOf(v)`, the value of variable `v` in the model. -/
def modelValue (s : Solver) (v : Int) : lbool :=
  if 0 ≤ v then s.model.getD v.toNat lbool.l_Undef else lbool.l_Undef

end Solver

/-- All total assignments of `n` variables. -/
def allAssignments : Nat → List (List Bool)
  | 0 => [[]]
  | n + 1 => (allAssignments n).flatMap (fun a => [false :: a, true :: a])

/-- An exhaustive-search oracle: the first assignment of the `n` variables that satisfies
the clauses. -/
def bruteForce (n : Nat) (cs : List (List Lit)) : Option (List Bool) :=
  (allAssignments n).find? (fun a => satisfies a cs)

/-! ## Class `Coloring` -/

/-- The data members of `class Coloring`. -/
structure Coloring where
  m_graph : Graph
  m_nNumberOfColors : Int
  m_solver : Solver
  deriving DecidableEq, Repr

namespace Coloring

/-- The constructor `Coloring(const Graph& g, int nNumberOfColors)`: one `newVar()` per
pass of the inner loop. -/
def new (g : Graph) (nNumberOfColors : Int) : Coloring :=
  let nodes := g.getNumberOfNodes
  ⟨g, nNumberOfColors,
    (intRange nNumberOfColors).foldl
      (fun s _ => (intRange nodes).foldl (fun s _ => s.newVar) s) Solver.new⟩

/-- `Minisat::Var getNodeHasColorVar(int node, int color)`, with the index of line 190
taken over the integers. This is the value the code computes whenever
`nodeCount * k <= 2^31` (`machine_getNodeHasColorVar_eq_model`); the computation in
32-bit `int`, for every input, is `Machine.getNodeHasColorVar`. -/
def getNodeHasColorVar (c : Coloring) (node color : Int) : Option Int :=
  if node < c.m_graph.getNumberOfNodes ∧ color < c.m_nNumberOfColors then
    some (color * c.m_graph.getNumberOfNodes + node)
  else none

/-- `void addOneColorConstraints(int node)`. -/
def addOneColorConstraints (c : Coloring) (node : Int) : Option Coloring :=
  if ¬ (node < c.m_graph.getNumberOfNodes) then none
  else do
    -- Ensure at least one color is selected
    let clause ← (intRange c.m_nNumberOfColors).foldlM
      (fun clause color => do
        let v ← c.getNodeHasColorVar node color
        pure (clause ++ [mkLit v false])) []
    let c1 : Coloring := { c with m_solver := c.m_solver.addClause clause }
    -- Ensure at most one color is selected
    (intRange c1.m_nNumberOfColors).foldlM
      (fun st color1 => (intRange color1).foldlM
        (fun st color2 => do
          let v1 ← st.getNodeHasColorVar node color1
          let v2 ← st.getNodeHasColorVar node color2
          pure { st with m_solver := st.m_solver.addClause [mkLit v1 true, mkLit v2 true] })
        st) c1

/-- `void addEdgeColoringConstraints(int n1, int n2)`. -/
def addEdgeColoringConstraints (c : Coloring) (n1 n2 : Int) : Option Coloring :=
  if ¬ (n1 < c.m_graph.getNumberOfNodes ∧ n2 < c.m_graph.getNumberOfNodes) then none
  else if ¬ (n1 ≤ n2) then none
  else
    (intRange c.m_nNumberOfColors).foldlM
      (fun st color => do
        let v1 ← st.getNodeHasColorVar n1 color
        let v2 ← st.getNodeHasColorVar n2 color
        pure { st with m_solver := st.m_solver.addClause [mkLit v1 true, mkLit v2 true] })
      c

/-- The generation sweep, written out twice in the source: lines 120-131 of `isColorable`
and lines 143-154 of `givemeAllColoring`. -/
def addAllConstraints (c : Coloring) : Option Coloring :=
  (intRange c.m_graph.getNumberOfNodes).foldlM
    (fun st n => do
      let st1 ← st.addOneColorConstraints n
      let edges ← st1.m_graph.getEdgesForNode n
      edges.foldlM (fun st2 adjacent => st2.addEdgeColoringConstraints n adjacent) st1)
    c

/-- `bool isColorable()`: the result and the state of the object after the call. -/
def isColorable (oracle : Nat → List (List Lit) → Option (List Bool)) (c : Coloring) :
    Option (Bool × Coloring) := do
  let c1 ← c.addAllConstraints
  let r := c1.m_solver.solve oracle
  pure (r.1, { c1 with m_solver := r.2 })

/-- The inner loop of the refinement clause (lines 169-176) for one node: the negated
variable of the first color whose variable is true in the model, if there is one. -/
def refinementLit (c : Coloring) (node : Int) : List Int → Option (Option Lit)
  | [] => some none
  | color :: rest => do
    let v ← c.getNodeHasColorVar node color
    if c.m_solver.modelValue v = lbool.l_True then pure (some (mkLit v true))
    else refinementLit c node rest

/-- The refinement clause of lines 168-177. -/
def refinementClause (c : Coloring) (nNodes : Int) : Option (List Lit) :=
  (intRange nNodes).foldlM
    (fun clause node => do
      let l ← c.refinementLit node (intRange c.m_nNumberOfColors)
      pure (clause ++ l.toList)) []

/-- The loop `while (m_solver.solve())` of lines 160-181. -/
def solveLoop (oracle : Nat → List (List Lit) → Option (List Bool)) (nVars : Int)
    (nNodes : Int) : Nat → Coloring → List (List lbool) → Option (Coloring × List (List lbool))
  | 0, _, _ => none
  | fuel + 1, c, allColoring =>
    let r := c.m_solver.solve oracle
    let c1 : Coloring := { c with m_solver := r.2 }
    if r.1 then do
      let assignment := (intRange nVars).map (fun v => c1.m_solver.modelValue v)
      let allColoring1 := allColoring ++ [assignment]
      let clause ← c1.refinementClause nNodes
      let c2 : Coloring := { c1 with m_solver := c1.m_solver.addClause clause }
      if (c2.m_solver.nVars : Int) = nVars then
        solveLoop oracle nVars nNodes fuel c2 allColoring1
      else none
    else some (c1, allColoring)

/-- `void givemeAllColoring(vector<vector<Minisat::lbool> >& allColoring)`: the state of
the object and of the vector after the call. -/
def givemeAllColoring (oracle : Nat → List (List Lit) → Option (List Bool)) (fuel : Nat)
    (c : Coloring) (allColoring : List (List lbool)) :
    Option (Coloring × List (List lbool)) := do
  let c1 ← c.addAllConstraints
  let nVars : Int := c1.m_solver.nVars
  let nNodes := c1.m_graph.getNumberOfNodes
  solveLoop oracle nVars nNodes fuel c1 allColoring

end Coloring

/-! ## Class `Coloring` with the variable index computed in 32-bit `int`

`Coloring.getNodeHasColorVar` above takes `color * nodeCount + node` over the integers.
Line 190 of `coloring.h` computes it in `int`; the definitions of this section repeat the
member functions with that product and that sum wrapped to 32 bits. The two families
agree whenever `nodeCount * k <= 2^31` (lemmas `machine_*_eq_*` below). -/

/-- The result, in 32-bit two's-complement `int` arithmetic, of an operation whose
mathematical value is `x`. -/
def int32 (x : Int) : Int :=
  (x + 2147483648) % 4294967296 - 2147483648

namespace Machine

/-- `Minisat::Var getNodeHasColorVar(int node, int color)`, the product and the sum of
line 190 in `int`. -/
def getNodeHasColorVar (c : Coloring) (node color : Int) : Option Int :=
  if node < c.m_graph.getNumberOfNodes ∧ color < c.m_nNumberOfColors then
    some (int32 (int32 (color * c.m_graph.getNumberOfNodes) + node))
  else none

/-- `void addOneColorConstraints(int node)`. -/
def addOneColorConstraints (c : Coloring) (node : Int) : Option Coloring :=
  if ¬ (node < c.m_graph.getNumberOfNodes) then none
  else do
    -- Ensure at least one color is selected
    let clause ← (intRange c.m_nNumberOfColors).foldlM
      (fun clause color => do
        let v ← Machine.getNodeHasColorVar c node color
        pure (clause ++ [mkLit v false])) []
    let c1 : Coloring := { c with m_solver := c.m_solver.addClause clause }
    -- Ensure at most one color is selected
    (intRange c1.m_nNumberOfColors).foldlM
      (fun st color1 => (intRange color1).foldlM
        (fun st color2 => do
          let v1 ← Machine.getNodeHasColorVar st node color1
          let v2 ← Machine.getNodeHasColorVar st node color2
          pure { st with m_solver := st.m_solver.addClause [mkLit v1 true, mkLit v2 true] })
        st) c1

/-- `void addEdgeColoringConstraints(int n1, int n2)`. -/
def addEdgeColoringConstraints (c : Coloring) (n1 n2 : Int) : Option Coloring :=
  if ¬ (n1 < c.m_graph.getNumberOfNodes ∧ n2 < c.m_graph.getNumberOfNodes) then none
  else if ¬ (n1 ≤ n2) then none
  else
    (intRange c.m_nNumberOfColors).foldlM
      (fun st color => do
        let v1 ← Machine.getNodeHasColorVar st n1 color
        let v2 ← Machine.getNodeHasColorVar st n2 color
        pure { st with m_solver := st.m_solver.addClause [mkLit v1 true, mkLit v2 true] })
      c

/-- The generation sweep of lines 120-131 and 143-154. -/
def addAllConstraints (c : Coloring) : Option Coloring :=
  (intRange c.m_graph.getNumberOfNodes).foldlM
    (fun st n => do
      let st1 ← Machine.addOneColorConstraints st n
      let edges ← st1.m_graph.getEdgesForNode n
      edges.foldlM (fun st2 adjacent => Machine.addEdgeColoringConstraints st2 n adjacent) st1)
    c

/-- `bool isColorable()`: the result and the state of the object after the call. -/
def isColorable (oracle : Nat → List (List Lit) → Option (List Bool)) (c : Coloring) :
    Option (Bool × Coloring) := do
  let c1 ← Machine.addAllConstraints c
  let r := c1.m_solver.solve oracle
  pure (r.1, { c1 with m_solver := r.2 })

/-- The inner loop of the refinement clause (lines 169-176) for one node. -/
def refinementLit (c : Coloring) (node : Int) : List Int → Option (Option Lit)
  | [] => some none
  | color :: rest => do
    let v ← Machine.getNodeHasColorVar c node color
    if c.m_solver.modelValue v = lbool.l_True then pure (some (mkLit v true))
    else refinementLit c node rest

/-- The refinement clause of lines 168-177. -/
def refinementClause (c : Coloring) (nNodes : Int) : Option (List Lit) :=
  (intRange nNodes).foldlM
    (fun clause node => do
      let l ← Machine.refinementLit c node (intRange c.m_nNumberOfColors)
      pure (clause ++ l.toList)) []

/-- The loop `while (m_solver.solve())` of lines 160-181. -/
def solveLoop (oracle : Nat → List (List Lit) → Option (List Bool)) (nVars : Int)
    (nNodes : Int) : Nat → Coloring → List (List lbool) → Option (Coloring × List (List lbool))
  | 0, _, _ => none
  | fuel + 1, c, allColoring =>
    let r := c.m_solver.solve oracle
    let c1 : Coloring := { c with m_solver := r.2 }
    if r.1 then do
      let assignment := (intRange nVars).map (fun v => c1.m_solver.modelValue v)
      let allColoring1 := allColoring ++ [assignment]
      let clause ← Machine.refinementClause c1 nNodes
      let c2 : Coloring := { c1 with m_solver := c1.m_solver.addClause clause }
      if (c2.m_solver.nVars : Int) = nVars then
        solveLoop oracle nVars nNodes fuel c2 allColoring1
      else none
    else some (c1, allColoring)

/-- `void givemeAllColoring(vector<vector<Minisat::lbool> >& allColoring)`. -/
def givemeAllColoring (oracle : Nat → List (List Lit) → Option (List Bool)) (fuel : Nat)
    (c : Coloring) (allColoring : List (List lbool)) :
    Option (Coloring × List (List lbool)) := do
  let c1 ← Machine.addAllConstraints c
  let nVars : Int := c1.m_solver.nVars
  let nNodes := c1.m_graph.getNumberOfNodes
  Machine.solveLoop oracle nVars nNodes fuel c1 allColoring

end Machine

/-- The literal that the 32-bit index computation yields for (node `n`, color `c`). -/
def machineLit (N n c : Nat) (sign : Bool) : Lit :=
  mkLit (int32 (int32 ((c : Int) * (N : Int)) + (n : Int))) sign

/-- The at-least-one clause of node `n`, with 32-bit indices. -/
def machineAtLeastOneClause (N K n : Nat) : List Lit :=
  (List.range K).map (fun c => machineLit N n c false)

/-- The at-most-one clauses of node `n`, with 32-bit indices. -/
def machineAtMostOneClauses (N K n : Nat) : List (List Lit) :=
  (List.range K).flatMap (fun c1 => (List.range c1).map (fun c2 =>
    [machineLit N n c1 true, machineLit N n c2 true]))

/-- The clauses of `addOneColorConstraints(n)`, with 32-bit indices. -/
def machineOneColorClauses (N K n : Nat) : List (List Lit) :=
  machineAtLeastOneClause N K n :: machineAtMostOneClauses N K n

/-- The clauses of `addEdgeColoringConstraints(a, b)`, with 32-bit indices. -/
def machineEdgeClauses (N K a b : Nat) : List (List Lit) :=
  (List.range K).map (fun c => [machineLit N a c true, machineLit N b c true])

/-! ## Specification-level notions -/

/-- The literal on the variable of (node `n`, color `c`) in a universe of `N` nodes. -/
def nodeLit (N n c : Nat) (sign : Bool) : Lit :=
  mkLit ((c * N + n : Nat) : Int) sign

def atLeastOneClause (N K n : Nat) : List Lit :=
  (List.range K).map (fun c => nodeLit N n c false)

def atMostOneClauses (N K n : Nat) : List (List Lit) :=
  (List.range K).flatMap (fun c1 => (List.range c1).map (fun c2 =>
    [nodeLit N n c1 true, nodeLit N n c2 true]))

def oneColorClauses (N K n : Nat) : List (List Lit) :=
  atLeastOneClause N K n :: atMostOneClauses N K n

def edgeClauses (N K a b : Nat) : List (List Lit) :=
  (List.range K).map (fun c => [nodeLit N a c true, nodeLit N b c true])

def Coloring.addClauses (c : Coloring) (cs : List (List Lit)) : Coloring :=
  { c with m_solver := { c.m_solver with clauses := c.m_solver.clauses ++ cs } }

/-- The clauses of the generation sweep over a graph with adjacency lists `adj`. -/
def baseClauses (N K : Nat) (adj : List (List Nat)) : List (List Lit) :=
  (List.range N).flatMap (fun n =>
    oneColorClauses N K n ++ (adj.getD n []).flatMap (fun b => edgeClauses N K n b))

/-- The clauses of the generation sweep, with 32-bit indices. -/
def machineBaseClauses (N K : Nat) (adj : List (List Nat)) : List (List Lit) :=
  (List.range N).flatMap (fun n =>
    machineOneColorClauses N K n ++ (adj.getD n []).flatMap (fun b => machineEdgeClauses N K n b))

/-- The representation of a graph of `N` nodes whose adjacency lists are `adj`. -/
def Graph.Represents (g : Graph) (N : Nat) (adj : List (List Nat)) : Prop :=
  g.m_nNumberOfNodes = N ∧ g.m_graph = adj.map (List.map Int.ofNat) ∧ adj.length = N ∧
    ∀ n b, b ∈ adj.getD n [] → n ≤ b ∧ b < N

/-- The adjacency lists reached by `addEdge(a, b)` for the listed pairs, in order. -/
def adjOf (N : Nat) (edges : List (Nat × Nat)) : List (List Nat) :=
  (List.range N).map (fun n => (edges.filter (fun e => e.1 = n)).map Prod.snd)

/-- The `int` arguments of the `addEdge` calls. -/
def castEdges (edges : List (Nat × Nat)) : List (Int × Int) :=
  edges.map (fun e => ((e.1 : Int), (e.2 : Int)))

/-- The value, under a total assignment, of the variable of (node `n`, color `c`). -/
def hasColor (a : List Bool) (N n c : Nat) : Bool :=
  a.getD (c * N + n) false

/-- The assignments of `n` variables that satisfy the clauses. -/
def solutions (n : Nat) (cs : List (List Lit)) : List (List Bool) :=
  (allAssignments n).filter (fun a => satisfies a cs)

/-- The first color, in increasing order, whose variable for node `n` is true. -/
def firstColor (a : List Bool) (N K n : Nat) : Option Nat :=
  (List.range K).find? (fun c => hasColor a N n c)

/-- The clause with, for each node holding a true color variable, the negation of the
first such variable. -/
def blockingClause (a : List Bool) (N K : Nat) : List Lit :=
  (List.range N).flatMap (fun n =>
    ((firstColor a N K n).map (fun col => nodeLit N n col true)).toList)

/-- Each node has exactly one color variable true under the assignment. -/
def ExactlyOne (a : List Bool) (N K : Nat) : Prop :=
  ∀ n, n < N → ∃! c, c < K ∧ hasColor a N n c = true

/-- The color of node `n` under an assignment: the first color whose variable is true, and
`K` when there is none. -/
def colorFn (a : List Bool) (N K n : Nat) : Nat :=
  (firstColor a N K n).getD K

/-- The assignment in which node `n` holds exactly the color `f n`. -/
def encode (f : Nat → Nat) (N K : Nat) : List Bool :=
  (List.range (N * K)).map (fun i => decide (f (i % N) = i / N))

/-- All maps from the nodes `0..n-1` to the colors `0..K-1`, as lists of length `n`. -/
def allMaps (K : Nat) : Nat → List (List Nat)
  | 0 => [[]]
  | n + 1 => (allMaps K n).flatMap (fun f => (List.range K).map (fun c => c :: f))

/-- The two endpoints of every edge have different colors. -/
def properColoring (edges : List (Nat × Nat)) (f : List Nat) : Bool :=
  edges.all (fun e => f.getD e.1 0 != f.getD e.2 0)

/-- The valid `K`-colorings of the graph on `N` nodes with the listed edges, by brute force. -/
def validColorings (N K : Nat) (edges : List (Nat × Nat)) : List (List Nat) :=
  (allMaps K N).filter (properColoring edges)

/-- The node-to-color map of an appended assignment: for each node the first color whose
variable reads `l_True` (the scan of lines 168-177), and `K` when there is none. -/
def decode (N K : Nat) (a : List lbool) : List Nat :=
  (List.range N).map (fun n =>
    ((List.range K).find? (fun c => a.getD (c * N + n) lbool.l_Undef == lbool.l_True)).getD K)

/-! ## How a call of `addEdge` ends, and the random test driver -/

/-- The ways a call of `addEdge` can end. -/
inductive AddEdgeOutcome where
  /-- The call returned; the graph after it. -/
  | done (g : Graph)
  /-- One of the two `assert`s failed; the graph is untouched. -/
  | assertFailed
  /-- The call `resize(n1+1)` threw `std::length_error`; the graph is untouched. -/
  | lengthError
  /-- The access `m_graph[n1]` fell outside the vector (undefined behaviour); the graph at
  that point. -/
  | outOfBounds (g : Graph)
  deriving DecidableEq, Repr

/-- `void addEdge(int n1, int n2)` once more, recording how the call ends (lines 33-45). -/
def Graph.addEdgeOutcome (g : Graph) (n1 n2 : Int) : AddEdgeOutcome :=
  if ¬ (n1 < g.m_nNumberOfNodes ∧ n2 < g.m_nNumberOfNodes) then AddEdgeOutcome.assertFailed
  else if ¬ (n1 ≤ n2) then AddEdgeOutcome.assertFailed
  else
    let resized : Option (List (List Int)) :=
      if n1 < 0 ∨ (g.m_graph.length : Int) ≤ n1 then
        if 0 ≤ n1 + 1 then some (Graph.resize g.m_graph (n1 + 1).toNat) else none
      else some g.m_graph
    match resized with
    | none => AddEdgeOutcome.lengthError
    | some v =>
      if 0 ≤ n1 ∧ n1.toNat < v.length then
        AddEdgeOutcome.done ⟨g.m_nNumberOfNodes, v.modify (fun l => l ++ [n2]) n1.toNat⟩
      else AddEdgeOutcome.outOfBounds ⟨g.m_nNumberOfNodes, v⟩

/-- The graph after a call that returned. -/
def AddEdgeOutcome.toOption : AddEdgeOutcome → Option Graph
  | AddEdgeOutcome.done g => some g
  | _ => none

/-- `int numNodes = rand() % 10 + 1;` (`test.cc`, line 64) for a value `r` of `rand()`. -/
def drawNumNodes (r : Int) : Int :=
  Int.tmod r 10 + 1

/-- The divisor `numNodes * (numNodes - 1) / 2` of `test.cc`, line 65. -/
def numEdgesDivisor (numNodes : Int) : Int :=
  Int.tdiv (numNodes * (numNodes - 1)) 2

/-- `int numEdges = rand() % (numNodes * (numNodes - 1) / 2);` (`test.cc`, line 65) for a
value `r` of `rand()`: the remainder by zero is undefined. -/
def drawNumEdges (numNodes r : Int) : Option Int :=
  if numEdgesDivisor numNodes = 0 then none
  else some (Int.tmod r (numEdgesDivisor numNodes))

theorem foldlM_eq_foldl {α β : Type} (f : β → α → Option β) (h : β → α → β) (P : β → Prop)
    (l : List α) : ∀ s : β, P s →
    (∀ s x, x ∈ l → P s → f s x = some (h s x) ∧ P (h s x)) →
    l.foldlM f s = some (l.foldl h s) ∧ P (l.foldl h s) := by
  induction l with
  | nil => intro s hs _; exact ⟨rfl, hs⟩
  | cons x xs ih =>
    intro s hs hf
    have h1 := hf s x (List.mem_cons_self _ _) hs
    have h2 := ih (h s x) h1.2 (fun s y hy => hf s y (List.mem_cons_of_mem _ hy))
    simp only [List.foldlM_cons, List.foldl_cons, h1.1]
    exact h2

theorem intRange_eq (k : Int) : intRange k = (List.range k.toNat).map Int.ofNat := rfl

theorem Coloring.addClauses_nil (c : Coloring) : c.addClauses [] = c := by
  simp [Coloring.addClauses]

theorem Coloring.addClauses_addClauses (c : Coloring) (xs ys : List (List Lit)) :
    (c.addClauses xs).addClauses ys = c.addClauses (xs ++ ys) := by
  simp [Coloring.addClauses, List.append_assoc]

theorem Coloring.getNodeHasColorVar_eq (c : Coloring) (N n col : Nat)
    (hN : c.m_graph.m_nNumberOfNodes = N) (hn : n < N) (hc : col < c.m_nNumberOfColors.toNat) :
    c.getNodeHasColorVar n col = some ((col * N + n : Nat) : Int) := by
  have h1 : (n : Int) < c.m_graph.getNumberOfNodes := by
    simp [Graph.getNumberOfNodes, hN, hn]
  have h2 : (col : Int) < c.m_nNumberOfColors := by omega
  simp [Coloring.getNodeHasColorVar, h1, h2]
  simp [Graph.getNumberOfNodes, hN]

theorem Coloring.addClauses_graph (c : Coloring) (xs : List (List Lit)) :
    (c.addClauses xs).m_graph = c.m_graph := rfl

theorem Coloring.addClauses_colors (c : Coloring) (xs : List (List Lit)) :
    (c.addClauses xs).m_nNumberOfColors = c.m_nNumberOfColors := rfl

theorem Coloring.addClause_eq (c : Coloring) (cl : List Lit) :
    ({ c with m_solver := c.m_solver.addClause cl } : Coloring) = c.addClauses [cl] := rfl

theorem atLeastOne_fold (c : Coloring) (N n : Nat)
    (hN : c.m_graph.m_nNumberOfNodes = N) (hn : n < N) (l : List Nat)
    (hl : ∀ x ∈ l, x < c.m_nNumberOfColors.toNat) : ∀ acc : List Lit,
    (l.map Int.ofNat).foldlM
      (fun clause color => do
        let v ← c.getNodeHasColorVar n color
        pure (clause ++ [mkLit v false])) acc
      = some (acc ++ l.map (fun col => nodeLit N n col false)) := by
  induction l with
  | nil => intro acc; simp
  | cons x xs ih =>
    intro acc
    have hx := c.getNodeHasColorVar_eq N n x hN hn (hl x (List.mem_cons_self _ _))
    simp only [List.map_cons, List.foldlM_cons]
    have := ih (fun y hy => hl y (List.mem_cons_of_mem _ hy)) (acc ++ [mkLit ((x * N + n : Nat) : Int) false])
    simp only [Int.ofNat_eq_coe, Option.pure_def, Option.bind_eq_bind] at this ⊢
    simp only [hx, Option.some_bind]
    rw [this]
    simp [nodeLit]

theorem atMostOne_inner_fold (N n c1 : Nat) (l : List Nat) : ∀ st : Coloring,
    st.m_graph.m_nNumberOfNodes = N → n < N → c1 < st.m_nNumberOfColors.toNat →
    (∀ x ∈ l, x < st.m_nNumberOfColors.toNat) →
    (l.map Int.ofNat).foldlM
      (fun (st : Coloring) color2 => do
        let v1 ← st.getNodeHasColorVar n c1
        let v2 ← st.getNodeHasColorVar n color2
        pure { st with m_solver := st.m_solver.addClause [mkLit v1 true, mkLit v2 true] }) st
      = some (st.addClauses (l.map (fun c2 => [nodeLit N n c1 true, nodeLit N n c2 true]))) := by
  induction l with
  | nil => intro st _ _ _ _; simp [Coloring.addClauses_nil]
  | cons x xs ih =>
    intro st hN hn hc hl
    have hx := st.getNodeHasColorVar_eq N n x hN hn (hl x (List.mem_cons_self _ _))
    have h1 := st.getNodeHasColorVar_eq N n c1 hN hn hc
    simp only [List.map_cons, List.foldlM_cons]
    have := ih (st.addClauses [[mkLit ((c1 * N + n : Nat) : Int) true, mkLit ((x * N + n : Nat) : Int) true]])
      hN hn hc (fun y hy => hl y (List.mem_cons_of_mem _ hy))
    simp only [Int.ofNat_eq_coe, Option.pure_def, Option.bind_eq_bind, Coloring.addClause_eq] at this ⊢
    simp only [hx, h1, Option.some_bind]
    rw [this, Coloring.addClauses_addClauses]
    simp [nodeLit]

theorem intRange_natCast (n : Nat) : intRange (n : Int) = (List.range n).map Int.ofNat := by
  simp [intRange]

theorem atMostOne_outer_fold (N n : Nat) (l : List Nat) : ∀ st : Coloring,
    st.m_graph.m_nNumberOfNodes = N → n < N →
    (∀ x ∈ l, x < st.m_nNumberOfColors.toNat) →
    (l.map Int.ofNat).foldlM
      (fun (st : Coloring) color1 => (intRange color1).foldlM
        (fun (st : Coloring) color2 => do
          let v1 ← st.getNodeHasColorVar n color1
          let v2 ← st.getNodeHasColorVar n color2
          pure { st with m_solver := st.m_solver.addClause [mkLit v1 true, mkLit v2 true] })
        st) st
      = some (st.addClauses (l.flatMap (fun c1 => (List.range c1).map (fun c2 =>
          [nodeLit N n c1 true, nodeLit N n c2 true])))) := by
  induction l with
  | nil => intro st _ _ _; simp [Coloring.addClauses_nil]
  | cons x xs ih =>
    intro st hN hn hl
    have hxK := hl x (List.mem_cons_self _ _)
    have hin := atMostOne_inner_fold N n x (List.range x) st hN hn hxK
      (fun y hy => lt_trans (List.mem_range.1 hy) hxK)
    simp only [List.map_cons, List.foldlM_cons, Int.ofNat_eq_coe, intRange_natCast] at hin ⊢
    rw [hin]
    have := ih (st.addClauses ((List.range x).map (fun c2 =>
      [nodeLit N n x true, nodeLit N n c2 true]))) hN hn
      (fun y hy => hl y (List.mem_cons_of_mem _ hy))
    simp only [Int.ofNat_eq_coe, intRange_natCast] at this
    simp only [Option.bind_eq_bind, Option.some_bind] at this ⊢
    rw [this, Coloring.addClauses_addClauses]
    simp

theorem Coloring.addOneColorConstraints_eq (c : Coloring) (N n : Nat)
    (hN : c.m_graph.m_nNumberOfNodes = N) (hn : n < N) :
    c.addOneColorConstraints n
      = some (c.addClauses (oneColorClauses N c.m_nNumberOfColors.toNat n)) := by
  have h1 : (n : Int) < c.m_graph.getNumberOfNodes := by
    simp [Graph.getNumberOfNodes, hN, hn]
  have hA := atLeastOne_fold c N n hN hn (List.range c.m_nNumberOfColors.toNat)
    (fun x hx => List.mem_range.1 hx) []
  have hB := atMostOne_outer_fold N n (List.range c.m_nNumberOfColors.toNat)
    (c.addClauses [atLeastOneClause N c.m_nNumberOfColors.toNat n]) hN hn
    (fun x hx => List.mem_range.1 hx)
  unfold Coloring.addOneColorConstraints
  simp only [h1, not_true_eq_false, if_false, intRange_eq, Coloring.addClause_eq] at hA hB ⊢
  simp only [Option.pure_def, Option.bind_eq_bind] at hA hB ⊢
  rw [hA]
  simp only [Option.some_bind, List.nil_append]
  simp only [Coloring.addClauses_colors, atLeastOneClause] at hB ⊢
  rw [hB, Coloring.addClauses_addClauses]
  rfl

theorem Coloring.addEdgeColoringConstraints_fold (N a b : Nat) (l : List Nat) :
    ∀ st : Coloring, st.m_graph.m_nNumberOfNodes = N → a < N → b < N →
    (∀ x ∈ l, x < st.m_nNumberOfColors.toNat) →
    (l.map Int.ofNat).foldlM
      (fun (st : Coloring) color => do
        let v1 ← st.getNodeHasColorVar a color
        let v2 ← st.getNodeHasColorVar b color
        pure { st with m_solver := st.m_solver.addClause [mkLit v1 true, mkLit v2 true] }) st
      = some (st.addClauses (l.map (fun col => [nodeLit N a col true, nodeLit N b col true]))) := by
  induction l with
  | nil => intro st _ _ _ _; simp [Coloring.addClauses_nil]
  | cons x xs ih =>
    intro st hN ha hb hl
    have hx := hl x (List.mem_cons_self _ _)
    have h1 := st.getNodeHasColorVar_eq N a x hN ha hx
    have h2 := st.getNodeHasColorVar_eq N b x hN hb hx
    have := ih (st.addClauses [[mkLit ((x * N + a : Nat) : Int) true, mkLit ((x * N + b : Nat) : Int) true]])
      hN ha hb (fun y hy => hl y (List.mem_cons_of_mem _ hy))
    simp only [List.map_cons, List.foldlM_cons]
    simp only [Int.ofNat_eq_coe, Option.pure_def, Option.bind_eq_bind, Coloring.addClause_eq] at this ⊢
    simp only [h1, h2, Option.some_bind]
    rw [this, Coloring.addClauses_addClauses]
    simp [nodeLit]

theorem Coloring.addEdgeColoringConstraints_eq (c : Coloring) (N a b : Nat)
    (hN : c.m_graph.m_nNumberOfNodes = N) (hab : a ≤ b) (hb : b < N) :
    c.addEdgeColoringConstraints a b
      = some (c.addClauses (edgeClauses N c.m_nNumberOfColors.toNat a b)) := by
  have ha : a < N := lt_of_le_of_lt hab hb
  have h1 : (a : Int) < c.m_graph.getNumberOfNodes ∧ (b : Int) < c.m_graph.getNumberOfNodes := by
    simp [Graph.getNumberOfNodes, hN, ha, hb]
  have h2 : (a : Int) ≤ b := by exact_mod_cast hab
  have hF := Coloring.addEdgeColoringConstraints_fold N a b (List.range c.m_nNumberOfColors.toNat)
    c hN ha hb (fun x hx => List.mem_range.1 hx)
  unfold Coloring.addEdgeColoringConstraints
  simp only [h1, h2, and_self, not_true_eq_false, if_false, intRange_eq]
  exact hF

theorem Graph.getEdgesForNode_eq (g : Graph) (N : Nat) (adj : List (List Nat))
    (hg : g.Represents N adj) (n : Nat) (hn : n < N) :
    g.getEdgesForNode n = some ((adj.getD n []).map Int.ofNat) := by
  obtain ⟨h1, h2, h3, _⟩ := hg
  have hlen : g.m_graph.length = N := by simp [h2, h3]
  have hc : (n : Int) < g.m_nNumberOfNodes ∧ (0 ≤ (n : Int) ∧ (n : Int) < (g.m_graph.length : Int)) := by
    rw [h1, hlen]; omega
  unfold Graph.getEdgesForNode
  rw [if_pos hc]
  have hn2 : n < adj.length := by omega
  simp [h2, List.getD_eq_getElem?_getD, List.getElem?_eq_getElem hn2]

theorem edges_fold (N n : Nat) (l : List Nat) : ∀ st : Coloring,
    st.m_graph.m_nNumberOfNodes = N → (∀ b ∈ l, n ≤ b ∧ b < N) →
    (l.map Int.ofNat).foldlM
      (fun (st2 : Coloring) adjacent => st2.addEdgeColoringConstraints n adjacent) st
      = some (st.addClauses (l.flatMap (fun b => edgeClauses N st.m_nNumberOfColors.toNat n b))) := by
  induction l with
  | nil => intro st _ _; simp [Coloring.addClauses_nil]
  | cons x xs ih =>
    intro st hN hl
    have hx := hl x (List.mem_cons_self _ _)
    have h1 := st.addEdgeColoringConstraints_eq N n x hN hx.1 hx.2
    have := ih (st.addClauses (edgeClauses N st.m_nNumberOfColors.toNat n x)) hN
      (fun y hy => hl y (List.mem_cons_of_mem _ hy))
    simp only [List.map_cons, List.foldlM_cons, Int.ofNat_eq_coe] at this ⊢
    rw [h1]
    simp only [Option.bind_eq_bind, Option.some_bind]
    rw [this, Coloring.addClauses_addClauses]
    simp [Coloring.addClauses_colors]

theorem sweep_fold (N : Nat) (adj : List (List Nat)) (l : List Nat) : ∀ st : Coloring,
    st.m_graph.Represents N adj → (∀ n ∈ l, n < N) →
    (l.map Int.ofNat).foldlM
      (fun (st : Coloring) n => do
        let st1 ← st.addOneColorConstraints n
        let edges ← st1.m_graph.getEdgesForNode n
        edges.foldlM (fun st2 adjacent => st2.addEdgeColoringConstraints n adjacent) st1) st
      = some (st.addClauses (l.flatMap (fun n =>
          oneColorClauses N st.m_nNumberOfColors.toNat n ++
            (adj.getD n []).flatMap (fun b => edgeClauses N st.m_nNumberOfColors.toNat n b)))) := by
  induction l with
  | nil => intro st _ _; simp [Coloring.addClauses_nil]
  | cons x xs ih =>
    intro st hg hl
    have hx := hl x (List.mem_cons_self _ _)
    have h1 := st.addOneColorConstraints_eq N x hg.1 hx
    have h2 := Graph.getEdgesForNode_eq st.m_graph N adj hg x hx
    have h3 := edges_fold N x (adj.getD x [])
      (st.addClauses (oneColorClauses N st.m_nNumberOfColors.toNat x)) hg.1
      (fun b hb => hg.2.2.2 x b hb)
    have := ih ((st.addClauses (oneColorClauses N st.m_nNumberOfColors.toNat x)).addClauses
      ((adj.getD x []).flatMap (fun b => edgeClauses N st.m_nNumberOfColors.toNat x b))) hg
      (fun y hy => hl y (List.mem_cons_of_mem _ hy))
    simp only [List.map_cons, List.foldlM_cons, Int.ofNat_eq_coe, Coloring.addClauses_colors,
      Coloring.addClauses_graph, Option.bind_eq_bind] at this h1 h2 h3 ⊢
    rw [h1]
    simp only [Option.some_bind, Coloring.addClauses_graph]
    rw [h2]
    simp only [Option.some_bind]
    rw [h3]
    simp only [Option.some_bind]
    rw [this, Coloring.addClauses_addClauses, Coloring.addClauses_addClauses]
    simp

theorem Coloring.addAllConstraints_eq (c : Coloring) (N : Nat) (adj : List (List Nat))
    (hg : c.m_graph.Represents N adj) :
    c.addAllConstraints
      = some (c.addClauses (baseClauses N c.m_nNumberOfColors.toNat adj)) := by
  have h := sweep_fold N adj (List.range N) c hg (fun n hn => List.mem_range.1 hn)
  unfold Coloring.addAllConstraints
  simp only [Graph.getNumberOfNodes, hg.1, intRange_natCast]
  exact h

theorem adjOf_length (N : Nat) (edges : List (Nat × Nat)) : (adjOf N edges).length = N := by
  simp [adjOf]

theorem adjOf_getD (N : Nat) (edges : List (Nat × Nat)) (n : Nat) (hn : n < N) :
    (adjOf N edges).getD n [] = (edges.filter (fun e => e.1 = n)).map Prod.snd := by
  simp [adjOf, List.getD_eq_getElem?_getD, List.getElem?_map, List.getElem?_range hn]

theorem adjOf_getD_ge (N : Nat) (edges : List (Nat × Nat)) (n : Nat) (hn : N ≤ n) :
    (adjOf N edges).getD n [] = [] := by
  simp [adjOf, List.getD_eq_getElem?_getD, List.getElem?_map, List.getElem?_eq_none, hn]

theorem adjOf_snoc (N : Nat) (edges : List (Nat × Nat)) (a b : Nat) :
    adjOf N (edges ++ [(a, b)]) = (adjOf N edges).modify (fun l => l ++ [b]) a := by
  apply List.ext_getElem?
  intro m
  rw [List.getElem?_modify]
  by_cases hm : m < N
  · simp only [adjOf, List.getElem?_map, List.getElem?_range hm, Option.map_some', List.filter_append,
      List.map_append]
    by_cases ham : a = m
    · simp [ham]
    · simp [ham]
  · simp [adjOf, List.getElem?_eq_none, Nat.le_of_not_lt hm]

theorem Graph.addEdge_eq (N : Nat) (adj : List (List Nat)) (a b : Nat)
    (hlen : adj.length = N) (hab : a ≤ b) (hb : b < N) :
    Graph.addEdge ⟨N, adj.map (List.map Int.ofNat)⟩ a b
      = some ⟨N, (adj.modify (fun l => l ++ [b]) a).map (List.map Int.ofNat)⟩ := by
  have ha : a < N := lt_of_le_of_lt hab hb
  have h1 : (a : Int) < N ∧ (b : Int) < N := by omega
  have h2 : (a : Int) ≤ b := by omega
  have h3 : ¬ ((a : Int) < 0 ∨ (((adj.map (List.map Int.ofNat)).length : Nat) : Int) ≤ a) := by
    simp [hlen]; omega
  have h4 : 0 ≤ (a : Int) ∧ (a : Int).toNat < (adj.map (List.map Int.ofNat)).length := by
    simp [hlen, ha]
  unfold Graph.addEdge
  simp only [h1, h2, and_self, not_true_eq_false, if_false, if_neg h3, if_pos h4]
  congr 2
  apply List.ext_getElem?
  intro m
  simp only [List.getElem?_modify, List.getElem?_map, Int.toNat_ofNat]
  cases adj[m]? with
  | none => simp
  | some l => by_cases ham : a = m <;> simp [ham]

theorem Graph.addEdges_eq (N : Nat) (edges : List (Nat × Nat))
    (hE : ∀ e ∈ edges, e.1 ≤ e.2 ∧ e.2 < N) : ∀ old : List (Nat × Nat),
    Graph.addEdges ⟨N, (adjOf N old).map (List.map Int.ofNat)⟩ (castEdges edges)
      = some ⟨N, (adjOf N (old ++ edges)).map (List.map Int.ofNat)⟩ := by
  induction edges with
  | nil => intro old; simp [Graph.addEdges, castEdges]
  | cons e es ih =>
    intro old
    have he := hE e (List.mem_cons_self _ _)
    have h1 := Graph.addEdge_eq N (adjOf N old) e.1 e.2 (adjOf_length N old) he.1 he.2
    have h2 := ih (fun x hx => hE x (List.mem_cons_of_mem _ hx)) (old ++ [e])
    simp only [Graph.addEdges, castEdges, List.map_cons, List.foldlM_cons] at h2 ⊢
    rw [h1]
    simp only [Option.bind_eq_bind, Option.some_bind]
    rw [← adjOf_snoc, h2]
    simp

theorem Graph.build_eq (N : Nat) (edges : List (Nat × Nat))
    (hE : ∀ e ∈ edges, e.1 ≤ e.2 ∧ e.2 < N) :
    Graph.build N (castEdges edges) = some ⟨N, (adjOf N edges).map (List.map Int.ofNat)⟩ := by
  have h := Graph.addEdges_eq N edges hE []
  have h0 : adjOf N [] = List.replicate N [] := by
    apply List.ext_getElem?
    intro m
    by_cases hm : m < N
    · simp [adjOf, List.getElem?_range hm, List.getElem?_replicate, hm]
    · simp [adjOf, List.getElem?_eq_none, Nat.le_of_not_lt hm, List.getElem?_replicate, hm]
  unfold Graph.build Graph.new
  simp only [Int.natCast_nonneg, if_true, Option.some_bind, Int.toNat_ofNat]
  rw [h0] at h
  simpa using h

theorem adjOf_represents (N : Nat) (edges : List (Nat × Nat))
    (hE : ∀ e ∈ edges, e.1 ≤ e.2 ∧ e.2 < N) :
    Graph.Represents ⟨N, (adjOf N edges).map (List.map Int.ofNat)⟩ N (adjOf N edges) := by
  refine ⟨rfl, rfl, adjOf_length N edges, ?_⟩
  intro n b hb
  by_cases hn : n < N
  · rw [adjOf_getD N edges n hn] at hb
    simp only [List.mem_map, List.mem_filter, decide_eq_true_eq] at hb
    obtain ⟨e, ⟨he, hen⟩, heb⟩ := hb
    have := hE e he
    subst hen; subst heb
    exact this
  · rw [adjOf_getD_ge N edges n (Nat.le_of_not_lt hn)] at hb
    simp at hb

theorem newVar_fold {α : Type} (l : List α) : ∀ s : Solver,
    l.foldl (fun s _ => s.newVar) s = { s with nVars := s.nVars + l.length } := by
  induction l with
  | nil => intro s; rfl
  | cons x xs ih =>
    intro s
    simp only [List.foldl_cons, ih, List.length_cons]
    simp only [Solver.newVar]
    have : s.nVars + 1 + xs.length = s.nVars + (xs.length + 1) := by omega
    rw [this]

theorem newVar_fold2 {α β : Type} (l2 : List β) (l : List α) : ∀ s : Solver,
    l.foldl (fun s _ => l2.foldl (fun s _ => s.newVar) s) s
      = { s with nVars := s.nVars + l.length * l2.length } := by
  induction l with
  | nil => intro s; simp
  | cons x xs ih =>
    intro s
    have e : (fun (s : Solver) (_ : α) => l2.foldl (fun s _ => s.newVar) s)
        = (fun (s : Solver) (_ : α) => { s with nVars := s.nVars + l2.length }) := by
      funext s _; exact newVar_fold l2 s
    rw [e] at ih ⊢
    simp only [List.foldl_cons, ih, List.length_cons]
    have : s.nVars + l2.length + xs.length * l2.length
        = s.nVars + (xs.length + 1) * l2.length := by ring
    rw [this]

theorem intRange_length (n : Int) : (intRange n).length = n.toNat := by
  simp [intRange]

theorem Coloring.new_solver (g : Graph) (k : Int) :
    (Coloring.new g k).m_solver = ⟨k.toNat * g.m_nNumberOfNodes.toNat, [], []⟩ := by
  simp [Coloring.new, newVar_fold2, intRange_length, Solver.new, Graph.getNumberOfNodes]

theorem nodeLit_holds (a : List Bool) (N n c : Nat) (sign : Bool) :
    Lit.holds a (nodeLit N n c sign) = (hasColor a N n c != sign) := by
  have h : (((c * N + n : Nat) : Int)).toNat = c * N + n := Int.toNat_ofNat _
  simp only [Lit.holds, nodeLit, mkLit, hasColor, h]

theorem satisfies_append (a : List Bool) (xs ys : List (List Lit)) :
    satisfies a (xs ++ ys) = (satisfies a xs && satisfies a ys) := by
  simp [satisfies]

theorem satisfies_atMostOne (a : List Bool) (N K n : Nat) :
    satisfies a (atMostOneClauses N K n) = true ↔
      ∀ c1, c1 < K → ∀ c2, c2 < c1 → ¬ (hasColor a N n c1 = true ∧ hasColor a N n c2 = true) := by
  simp only [satisfies, atMostOneClauses, List.all_eq_true, List.mem_flatMap, List.mem_range,
    List.mem_map]
  constructor
  · intro h c1 h1 c2 h2
    have := h _ ⟨c1, h1, c2, h2, rfl⟩
    simp [clauseHolds, nodeLit_holds] at this
    intro ⟨ha, hb⟩
    rcases this with h | h <;> simp_all
  · rintro h cl ⟨c1, h1, c2, h2, rfl⟩
    have := h c1 h1 c2 h2
    simp only [clauseHolds, List.any_cons, nodeLit_holds, List.any_nil, Bool.or_false,
      Bool.or_eq_true, bne_iff_ne, ne_eq, Bool.not_eq_true]
    by_cases hx : hasColor a N n c1 = true
    · right; simp_all
    · left; simpa using hx

theorem clauseHolds_atLeastOne (a : List Bool) (N K n : Nat) :
    clauseHolds a (atLeastOneClause N K n) = true ↔ ∃ c, c < K ∧ hasColor a N n c = true := by
  simp [clauseHolds, atLeastOneClause, nodeLit_holds]

theorem satisfies_oneColor (a : List Bool) (N K n : Nat) :
    satisfies a (oneColorClauses N K n) = true ↔
      ∃! c, c < K ∧ hasColor a N n c = true := by
  have h1 := satisfies_atMostOne a N K n
  have h2 := clauseHolds_atLeastOne a N K n
  have h0 : satisfies a (oneColorClauses N K n)
      = (clauseHolds a (atLeastOneClause N K n) && satisfies a (atMostOneClauses N K n)) := by
    simp [satisfies, oneColorClauses]
  rw [h0, Bool.and_eq_true, h1, h2]
  constructor
  · rintro ⟨⟨c, hc, hv⟩, hmost⟩
    refine ⟨c, ⟨hc, hv⟩, ?_⟩
    rintro d ⟨hd, hdv⟩
    rcases lt_trichotomy d c with h | h | h
    · exact absurd ⟨hv, hdv⟩ (hmost c hc d h)
    · exact h
    · exact absurd ⟨hdv, hv⟩ (hmost d hd c h)
  · rintro ⟨c, ⟨hc, hv⟩, huniq⟩
    refine ⟨⟨c, hc, hv⟩, ?_⟩
    rintro c1 h1 c2 h2 ⟨hv1, hv2⟩
    have e1 := huniq c1 ⟨h1, hv1⟩
    have e2 := huniq c2 ⟨lt_trans h2 h1, hv2⟩
    omega

theorem satisfies_edge (a : List Bool) (N K x y : Nat) :
    satisfies a (edgeClauses N K x y) = true ↔
      ∀ c, c < K → ¬ (hasColor a N x c = true ∧ hasColor a N y c = true) := by
  simp only [satisfies, edgeClauses, List.all_eq_true, List.mem_map, List.mem_range]
  constructor
  · intro h c hc
    have := h _ ⟨c, hc, rfl⟩
    simp [clauseHolds, nodeLit_holds] at this
    intro ⟨ha, hb⟩
    rcases this with h | h <;> simp_all
  · rintro h cl ⟨c, hc, rfl⟩
    have := h c hc
    simp only [clauseHolds, List.any_cons, nodeLit_holds, List.any_nil, Bool.or_false,
      Bool.or_eq_true, bne_iff_ne, ne_eq, Bool.not_eq_true]
    by_cases hx : hasColor a N x c = true
    · right; simp_all
    · left; simpa using hx

theorem satisfies_flatMap {α : Type} (a : List Bool) (l : List α) (f : α → List (List Lit)) :
    satisfies a (l.flatMap f) = true ↔ ∀ x ∈ l, satisfies a (f x) = true := by
  simp only [satisfies, List.all_eq_true, List.mem_flatMap]
  constructor
  · intro h x hx cl hcl; exact h cl ⟨x, hx, hcl⟩
  · rintro h cl ⟨x, hx, hcl⟩; exact h x hx cl hcl

theorem satisfies_base (a : List Bool) (N K : Nat) (adj : List (List Nat)) :
    satisfies a (baseClauses N K adj) = true ↔
      (∀ n, n < N → ∃! c, c < K ∧ hasColor a N n c = true) ∧
      (∀ n, n < N → ∀ b ∈ adj.getD n [], ∀ c, c < K →
        ¬ (hasColor a N n c = true ∧ hasColor a N b c = true)) := by
  unfold baseClauses
  rw [satisfies_flatMap]
  simp only [List.mem_range, satisfies_append, Bool.and_eq_true, satisfies_oneColor,
    satisfies_flatMap, satisfies_edge]
  constructor
  · intro h; exact ⟨fun n hn => (h n hn).1, fun n hn => (h n hn).2⟩
  · intro h n hn; exact ⟨h.1 n hn, h.2 n hn⟩

theorem mem_allAssignments (n : Nat) : ∀ a : List Bool, a ∈ allAssignments n ↔ a.length = n := by
  induction n with
  | zero => intro a; simp [allAssignments]
  | succ n ih =>
    intro a
    simp only [allAssignments, List.mem_flatMap, List.mem_cons, List.mem_singleton, ih]
    constructor
    · rintro ⟨b, hb, h | h | h⟩
      · simp [h, hb]
      · simp [h, hb]
      · simp at h
    · intro h
      cases a with
      | nil => simp at h
      | cons x xs =>
        refine ⟨xs, by simpa using h, ?_⟩
        cases x <;> simp

theorem allAssignments_nodup (n : Nat) : (allAssignments n).Nodup := by
  induction n with
  | zero => simp [allAssignments]
  | succ n ih =>
    simp only [allAssignments]
    rw [List.nodup_flatMap]
    refine ⟨fun a _ => by simp, ?_⟩
    refine List.Nodup.pairwise_of_forall_ne ih ?_
    intro a _ b _ hab
    simp only [Function.onFun, List.disjoint_cons_left, List.mem_cons, List.cons.injEq,
      List.mem_singleton, List.disjoint_nil_left, and_true]
    simp [hab]

theorem solutions_nodup (n : Nat) (cs : List (List Lit)) : (solutions n cs).Nodup :=
  (allAssignments_nodup n).filter _

theorem mem_solutions (n : Nat) (cs : List (List Lit)) (a : List Bool) :
    a ∈ solutions n cs ↔ a.length = n ∧ satisfies a cs = true := by
  simp [solutions, mem_allAssignments]

theorem bruteForce_correct : OracleCorrect bruteForce := by
  intro n cs
  constructor
  · intro m hm
    have h1 := List.find?_some hm
    have h2 := List.mem_of_find?_eq_some hm
    exact ⟨(mem_allAssignments n m).1 h2, h1⟩
  · intro h m hm
    have := List.find?_eq_none.1 h m ((mem_allAssignments n m).2 hm)
    simpa using this

theorem getD_map_ofBool (m : List Bool) (i : Nat) :
    (m.map lbool.ofBool).getD i lbool.l_Undef = lbool.l_True ↔ m.getD i false = true := by
  simp only [List.getD_eq_getElem?_getD, List.getElem?_map]
  cases m[i]? with
  | none => simp
  | some b => cases b <;> simp [lbool.ofBool]

theorem Solver.modelValue_eq_true (s : Solver) (m : List Bool) (hm : s.model = m.map lbool.ofBool)
    (N n c : Nat) :
    s.modelValue ((c * N + n : Nat) : Int) = lbool.l_True ↔ hasColor m N n c = true := by
  have h0 : (0 : Int) ≤ ((c * N + n : Nat) : Int) := Int.natCast_nonneg _
  unfold Solver.modelValue
  rw [if_pos h0, hm, Int.toNat_ofNat, getD_map_ofBool]
  rfl

theorem Coloring.refinementLit_eq (c : Coloring) (m : List Bool) (N n : Nat)
    (hN : c.m_graph.m_nNumberOfNodes = N) (hn : n < N)
    (hm : c.m_solver.model = m.map lbool.ofBool) (l : List Nat)
    (hl : ∀ x ∈ l, x < c.m_nNumberOfColors.toNat) :
    c.refinementLit n (l.map Int.ofNat)
      = some ((l.find? (fun col => hasColor m N n col)).map (fun col => nodeLit N n col true)) := by
  induction l with
  | nil => simp [Coloring.refinementLit]
  | cons x xs ih =>
    have hx := c.getNodeHasColorVar_eq N n x hN hn (hl x (List.mem_cons_self _ _))
    have hv := c.m_solver.modelValue_eq_true m hm N n x
    have ih2 := ih (fun y hy => hl y (List.mem_cons_of_mem _ hy))
    simp only [List.map_cons, Coloring.refinementLit, Int.ofNat_eq_coe, Option.pure_def,
      Option.bind_eq_bind] at ih2 ⊢
    rw [hx]
    simp only [Option.some_bind]
    by_cases hc : hasColor m N n x = true
    · rw [if_pos (hv.2 hc)]
      simp [List.find?_cons, hc, nodeLit]
    · rw [if_neg (fun h => hc (hv.1 h)), ih2]
      simp [List.find?_cons, hc]

theorem refinementClause_fold (c : Coloring) (m : List Bool) (N : Nat)
    (hN : c.m_graph.m_nNumberOfNodes = N)
    (hm : c.m_solver.model = m.map lbool.ofBool) (l : List Nat) (hl : ∀ n ∈ l, n < N) :
    ∀ acc : List Lit,
    (l.map Int.ofNat).foldlM
      (fun clause node => do
        let lit ← c.refinementLit node (intRange c.m_nNumberOfColors)
        pure (clause ++ lit.toList)) acc
      = some (acc ++ l.flatMap (fun n =>
          ((firstColor m N c.m_nNumberOfColors.toNat n).map
            (fun col => nodeLit N n col true)).toList)) := by
  induction l with
  | nil => intro acc; simp
  | cons x xs ih =>
    intro acc
    have hx := c.refinementLit_eq m N x hN (hl x (List.mem_cons_self _ _)) hm
      (List.range c.m_nNumberOfColors.toNat) (fun y hy => List.mem_range.1 hy)
    have ih2 := ih (fun y hy => hl y (List.mem_cons_of_mem _ hy))
      (acc ++ ((firstColor m N c.m_nNumberOfColors.toNat x).map
        (fun col => nodeLit N x col true)).toList)
    simp only [List.map_cons, List.foldlM_cons, Int.ofNat_eq_coe, Option.pure_def,
      Option.bind_eq_bind, intRange_eq] at ih2 hx ⊢
    rw [hx]
    simp only [Option.some_bind]
    rw [firstColor] at ih2
    rw [ih2]
    simp [firstColor]

theorem Coloring.refinementClause_eq (c : Coloring) (m : List Bool) (N : Nat)
    (hN : c.m_graph.m_nNumberOfNodes = N)
    (hm : c.m_solver.model = m.map lbool.ofBool) :
    c.refinementClause N = some (blockingClause m N c.m_nNumberOfColors.toNat) := by
  have h := refinementClause_fold c m N hN hm (List.range N) (fun n hn => List.mem_range.1 hn) []
  unfold Coloring.refinementClause
  rw [intRange_natCast]
  simpa [blockingClause] using h

theorem assignment_eq (s : Solver) (m : List Bool) (hm : s.model = m.map lbool.ofBool) :
    (intRange (m.length : Int)).map (fun v => s.modelValue v) = m.map lbool.ofBool := by
  apply List.ext_getElem
  · simp [intRange]
  · intro i h1 h2
    have hi : i < m.length := by simpa using h2
    simp [intRange, Solver.modelValue, hm, List.getD_eq_getElem?_getD, List.getElem?_eq_getElem hi]

theorem firstColor_spec (m : List Bool) (N K n col : Nat) (h : firstColor m N K n = some col) :
    col < K ∧ hasColor m N n col = true := by
  unfold firstColor at h
  exact ⟨List.mem_range.1 (List.mem_of_find?_eq_some h), List.find?_some h⟩

theorem firstColor_of_exactlyOne (m : List Bool) (N K n : Nat) (hm : ExactlyOne m N K)
    (hn : n < N) : ∃ col, firstColor m N K n = some col := by
  obtain ⟨c, ⟨hc, hv⟩, _⟩ := hm n hn
  have : ((List.range K).find? (fun c => hasColor m N n c)).isSome = true := by
    rw [List.find?_isSome]
    exact ⟨c, List.mem_range.2 hc, hv⟩
  exact Option.isSome_iff_exists.1 this

theorem clauseHolds_blocking (a m : List Bool) (N K : Nat) :
    clauseHolds a (blockingClause m N K) = false ↔
      ∀ n, n < N → ∀ col, firstColor m N K n = some col → hasColor a N n col = true := by
  simp only [clauseHolds, blockingClause, List.any_eq_false, List.mem_flatMap, List.mem_range,
    Option.mem_toList, Option.mem_def, Option.map_eq_some']
  constructor
  · intro h n hn col hcol
    have := h (nodeLit N n col true) ⟨n, hn, col, hcol, rfl⟩
    simpa [nodeLit_holds] using this
  · rintro h l ⟨n, hn, col, hcol, rfl⟩
    simp [nodeLit_holds, h n hn col hcol]

theorem hasColor_eq_getElem (a : List Bool) (N i : Nat) (hi : i < a.length) :
    hasColor a N (i % N) (i / N) = a[i] := by
  have : i / N * N + i % N = i := Nat.div_add_mod' i N
  simp [hasColor, this, List.getD_eq_getElem?_getD, List.getElem?_eq_getElem hi]

theorem eq_of_same_colors (a m : List Bool) (N K : Nat) (ha : a.length = N * K)
    (hm : m.length = N * K) (hEa : ExactlyOne a N K) (hEm : ExactlyOne m N K)
    (h : ∀ n, n < N → ∀ col, firstColor m N K n = some col → hasColor a N n col = true) :
    a = m := by
  apply List.ext_getElem (by rw [ha, hm])
  intro i h1 h2
  have hiNK : i < N * K := by rw [← ha]; exact h1
  have hN : 0 < N := by
    rcases Nat.eq_zero_or_pos N with h0 | h0
    · rw [h0] at hiNK; simp at hiNK
    · exact h0
  have hn : i % N < N := Nat.mod_lt _ hN
  have hc : i / N < K := by
    rw [Nat.div_lt_iff_lt_mul hN, Nat.mul_comm]; exact hiNK
  obtain ⟨col, hcol⟩ := firstColor_of_exactlyOne m N K (i % N) hEm hn
  have hmc := firstColor_spec m N K (i % N) col hcol
  have hac := h (i % N) hn col hcol
  have e1 := hasColor_eq_getElem a N i h1
  have e2 := hasColor_eq_getElem m N i h2
  rw [← e1, ← e2]
  by_cases hcc : i / N = col
  · rw [hcc, hac, hmc.2]
  · have f1 : hasColor a N (i % N) (i / N) = false := by
      by_contra hne
      have ht : hasColor a N (i % N) (i / N) = true := by simpa using hne
      obtain ⟨c0, _, huniq⟩ := hEa (i % N) hn
      have := (huniq (i / N) ⟨hc, ht⟩).trans (huniq col ⟨hmc.1, hac⟩).symm
      exact hcc this
    have f2 : hasColor m N (i % N) (i / N) = false := by
      by_contra hne
      have ht : hasColor m N (i % N) (i / N) = true := by simpa using hne
      obtain ⟨c0, _, huniq⟩ := hEm (i % N) hn
      have := (huniq (i / N) ⟨hc, ht⟩).trans (huniq col hmc).symm
      exact hcc this
    rw [f1, f2]

theorem blocking_falsified_iff (a m : List Bool) (N K : Nat) (ha : a.length = N * K)
    (hm : m.length = N * K) (hEa : ExactlyOne a N K) (hEm : ExactlyOne m N K) :
    clauseHolds a (blockingClause m N K) = false ↔ a = m := by
  rw [clauseHolds_blocking]
  constructor
  · exact eq_of_same_colors a m N K ha hm hEa hEm
  · intro h n _ col hcol
    rw [h]
    exact (firstColor_spec m N K n col hcol).2

theorem solutions_block (V N K : Nat) (cs : List (List Lit)) (m : List Bool) (hV : V = N * K)
    (hcs : ∀ a : List Bool, a.length = V → satisfies a cs = true → ExactlyOne a N K)
    (hm : m ∈ solutions V cs) :
    solutions V (cs ++ [blockingClause m N K]) = (solutions V cs).erase m := by
  rw [(solutions_nodup V cs).erase_eq_filter]
  unfold solutions
  rw [List.filter_filter]
  apply List.filter_congr
  intro a ha
  have hlen := (mem_allAssignments V a).1 ha
  have hm2 := (mem_solutions V cs m).1 hm
  rw [satisfies_append]
  by_cases hs : satisfies a cs = true
  · have hb := blocking_falsified_iff a m N K (hV ▸ hlen) (hV ▸ hm2.1) (hcs a hlen hs)
      (hcs m hm2.1 hm2.2)
    have e : satisfies a [blockingClause m N K] = clauseHolds a (blockingClause m N K) := by
      simp [satisfies]
    rw [hs, e]
    by_cases ham : a = m
    · have := hb.2 ham
      rw [this]
      simp [ham]
    · have : clauseHolds a (blockingClause m N K) = true := by
        by_contra hne
        exact ham (hb.1 (by simpa using hne))
      simp [ham, this]
  · have : satisfies a cs = false := by simpa using hs
    simp [this]

theorem solveLoop_spec (oracle : Nat → List (List Lit) → Option (List Bool))
    (hO : OracleCorrect oracle) (N K : Nat) :
    ∀ (fuel : Nat) (c : Coloring) (allColoring : List (List lbool)),
    c.m_graph.m_nNumberOfNodes = N → c.m_nNumberOfColors.toNat = K →
    c.m_solver.nVars = N * K →
    (∀ a : List Bool, a.length = N * K → satisfies a c.m_solver.clauses = true →
      ExactlyOne a N K) →
    (solutions (N * K) c.m_solver.clauses).length < fuel →
    ∃ (c' : Coloring) (found : List (List Bool)),
      Coloring.solveLoop oracle ((N * K : Nat) : Int) N fuel c allColoring
        = some (c', allColoring ++ found.map (List.map lbool.ofBool)) ∧
      found.Perm (solutions (N * K) c.m_solver.clauses) ∧
      c'.m_graph = c.m_graph ∧ c'.m_nNumberOfColors = c.m_nNumberOfColors ∧
      c'.m_solver.nVars = c.m_solver.nVars ∧
      solutions (N * K) c'.m_solver.clauses = [] := by
  intro fuel
  induction fuel with
  | zero => intro c all _ _ _ _ h; simp at h
  | succ fuel ih =>
    intro c all hN hK hV hcs hfuel
    obtain ⟨hsome, hnone⟩ := hO (N * K) c.m_solver.clauses
    cases hor : oracle (N * K) c.m_solver.clauses with
    | none =>
      have hnil : solutions (N * K) c.m_solver.clauses = [] := by
        unfold solutions
        rw [List.filter_eq_nil_iff]
        intro a ha
        have := hnone hor a ((mem_allAssignments _ a).1 ha)
        simp [this]
      refine ⟨{ c with m_solver := { c.m_solver with model := [] } }, [], ?_, ?_, rfl, rfl, rfl,
        hnil⟩
      · simp [Coloring.solveLoop, Solver.solve, hV, hor]
      · rw [hnil]
    | some m =>
      obtain ⟨hlen, hsat⟩ := hsome m hor
      have hmem : m ∈ solutions (N * K) c.m_solver.clauses :=
        (mem_solutions _ _ m).2 ⟨hlen, hsat⟩
      let c1 : Coloring := { c with m_solver := { c.m_solver with model := m.map lbool.ofBool } }
      have hmod : c1.m_solver.model = m.map lbool.ofBool := rfl
      have hasg := assignment_eq c1.m_solver m hmod
      rw [hlen] at hasg
      have hcl := c1.refinementClause_eq m N hN hmod
      have hK1 : c1.m_nNumberOfColors.toNat = K := hK
      rw [hK1] at hcl
      let c2 : Coloring := { c1 with m_solver := c1.m_solver.addClause (blockingClause m N K) }
      have hsol := solutions_block (N * K) N K c.m_solver.clauses m rfl hcs hmem
      have hcs2 : ∀ a : List Bool, a.length = N * K → satisfies a c2.m_solver.clauses = true →
          ExactlyOne a N K := by
        intro a ha hs
        have : satisfies a (c.m_solver.clauses ++ [blockingClause m N K]) = true := hs
        rw [satisfies_append, Bool.and_eq_true] at this
        exact hcs a ha this.1
      have hfuel2 : (solutions (N * K) c2.m_solver.clauses).length < fuel := by
        have e : c2.m_solver.clauses = c.m_solver.clauses ++ [blockingClause m N K] := rfl
        rw [e, hsol, List.length_erase_of_mem hmem]
        have hpos : 0 < (solutions (N * K) c.m_solver.clauses).length :=
          List.length_pos_of_mem hmem
        omega
      obtain ⟨c', found, hrun, hperm, hg, hk, hv, hfin⟩ :=
        ih c2 (all ++ [m.map lbool.ofBool]) hN hK hV hcs2 hfuel2
      refine ⟨c', m :: found, ?_, ?_, hg, hk, hv, hfin⟩
      · have hs : c.m_solver.solve oracle
            = (true, { c.m_solver with model := m.map lbool.ofBool }) := by
          simp [Solver.solve, hV, hor]
        have hnv : ((c2.m_solver.nVars : Nat) : Int) = ((N * K : Nat) : Int) := by
          have : c2.m_solver.nVars = N * K := hV
          rw [this]
        unfold Coloring.solveLoop
        rw [hs]
        dsimp only [c1, c2] at hasg hcl hrun hnv ⊢
        simp only [if_true, Option.bind_eq_bind, Option.pure_def]
        rw [hasg, hcl]
        simp only [Option.some_bind]
        rw [if_pos hnv, hrun]
        simp
      · have e : c2.m_solver.clauses = c.m_solver.clauses ++ [blockingClause m N K] := rfl
        rw [e, hsol] at hperm
        refine (List.Perm.cons m hperm).trans ?_
        convert (List.perm_cons_erase hmem).symm

theorem hasColor_encode (f : Nat → Nat) (N K n c : Nat) (hn : n < N) (hc : c < K) :
    hasColor (encode f N K) N n c = decide (f n = c) := by
  have hi : c * N + n < N * K := by
    calc c * N + n < c * N + N := by omega
      _ = (c + 1) * N := by ring
      _ ≤ K * N := Nat.mul_le_mul_right N hc
      _ = N * K := Nat.mul_comm K N
  have hmod : (c * N + n) % N = n := by
    rw [Nat.add_comm, Nat.add_mul_mod_self_right, Nat.mod_eq_of_lt hn]
  have hdiv : (c * N + n) / N = c := by
    rw [Nat.add_comm, Nat.add_mul_div_right _ _ (by omega), Nat.div_eq_of_lt hn, Nat.zero_add]
  simp [hasColor, encode, List.getD_eq_getElem?_getD, List.getElem?_map, List.getElem?_range hi,
    hmod, hdiv]

theorem encode_length (f : Nat → Nat) (N K : Nat) : (encode f N K).length = N * K := by
  simp [encode]

theorem encode_exactlyOne (f : Nat → Nat) (N K : Nat) (hf : ∀ n, n < N → f n < K) :
    ExactlyOne (encode f N K) N K := by
  intro n hn
  refine ⟨f n, ⟨hf n hn, ?_⟩, ?_⟩
  · simp [hasColor_encode f N K n (f n) hn (hf n hn)]
  · rintro c ⟨hc, hv⟩
    rw [hasColor_encode f N K n c hn hc] at hv
    exact (of_decide_eq_true hv).symm

theorem colorFn_spec (a : List Bool) (N K n : Nat) (ha : ExactlyOne a N K) (hn : n < N) :
    colorFn a N K n < K ∧ ∀ c, c < K → (hasColor a N n c = true ↔ c = colorFn a N K n) := by
  obtain ⟨col, hcol⟩ := firstColor_of_exactlyOne a N K n ha hn
  have hs := firstColor_spec a N K n col hcol
  have e : colorFn a N K n = col := by simp [colorFn, hcol]
  rw [e]
  refine ⟨hs.1, fun c hc => ⟨fun hv => ?_, fun h => h ▸ hs.2⟩⟩
  obtain ⟨c0, _, huniq⟩ := ha n hn
  exact (huniq c ⟨hc, hv⟩).trans (huniq col hs).symm

theorem colorFn_encode (f : Nat → Nat) (N K n : Nat) (hf : ∀ n, n < N → f n < K) (hn : n < N) :
    colorFn (encode f N K) N K n = f n := by
  have h := colorFn_spec (encode f N K) N K n (encode_exactlyOne f N K hf) hn
  have := (h.2 (f n) (hf n hn)).1 (by simp [hasColor_encode f N K n (f n) hn (hf n hn)])
  exact this.symm

theorem satisfies_base_edges (a : List Bool) (N K : Nat) (edges : List (Nat × Nat))
    (hE : ∀ e ∈ edges, e.1 ≤ e.2 ∧ e.2 < N) :
    satisfies a (baseClauses N K (adjOf N edges)) = true ↔
      ExactlyOne a N K ∧ ∀ e ∈ edges, ∀ c, c < K →
        ¬ (hasColor a N e.1 c = true ∧ hasColor a N e.2 c = true) := by
  rw [satisfies_base]
  constructor
  · rintro ⟨h1, h2⟩
    refine ⟨h1, ?_⟩
    intro e he c hc
    have hb := hE e he
    have hn : e.1 < N := lt_of_le_of_lt hb.1 hb.2
    refine h2 e.1 hn e.2 ?_ c hc
    rw [adjOf_getD N edges e.1 hn]
    simp only [List.mem_map, List.mem_filter, decide_eq_true_eq]
    exact ⟨e, ⟨he, rfl⟩, rfl⟩
  · rintro ⟨h1, h2⟩
    refine ⟨h1, ?_⟩
    intro n hn b hb c hc
    rw [adjOf_getD N edges n hn] at hb
    simp only [List.mem_map, List.mem_filter, decide_eq_true_eq] at hb
    obtain ⟨e, ⟨he, hen⟩, heb⟩ := hb
    have := h2 e he c hc
    rw [hen, heb] at this
    exact this

theorem proper_of_satisfies (a : List Bool) (N K : Nat) (edges : List (Nat × Nat))
    (hE : ∀ e ∈ edges, e.1 ≤ e.2 ∧ e.2 < N)
    (h : satisfies a (baseClauses N K (adjOf N edges)) = true) :
    ∀ e ∈ edges, colorFn a N K e.1 ≠ colorFn a N K e.2 := by
  obtain ⟨h1, h2⟩ := (satisfies_base_edges a N K edges hE).1 h
  intro e he heq
  have hb := hE e he
  have hn : e.1 < N := lt_of_le_of_lt hb.1 hb.2
  have s1 := colorFn_spec a N K e.1 h1 hn
  have s2 := colorFn_spec a N K e.2 h1 hb.2
  refine h2 e he (colorFn a N K e.1) s1.1 ⟨(s1.2 _ s1.1).2 rfl, ?_⟩
  rw [heq]
  exact (s2.2 _ s2.1).2 rfl

theorem encode_satisfies (f : Nat → Nat) (N K : Nat) (edges : List (Nat × Nat))
    (hE : ∀ e ∈ edges, e.1 ≤ e.2 ∧ e.2 < N) (hf : ∀ n, n < N → f n < K)
    (hp : ∀ e ∈ edges, f e.1 ≠ f e.2) :
    satisfies (encode f N K) (baseClauses N K (adjOf N edges)) = true := by
  rw [satisfies_base_edges _ N K edges hE]
  refine ⟨encode_exactlyOne f N K hf, ?_⟩
  rintro e he c hc ⟨h1, h2⟩
  have hb := hE e he
  have hn : e.1 < N := lt_of_le_of_lt hb.1 hb.2
  rw [hasColor_encode f N K e.1 c hn hc] at h1
  rw [hasColor_encode f N K e.2 c hb.2 hc] at h2
  exact hp e he ((of_decide_eq_true h1).trans (of_decide_eq_true h2).symm)

theorem Coloring.givemeAllColoring_spec (oracle : Nat → List (List Lit) → Option (List Bool))
    (hO : OracleCorrect oracle) (N : Nat) (adj : List (List Nat)) (c : Coloring)
    (hg : c.m_graph.Represents N adj) (hV : c.m_solver.nVars = N * c.m_nNumberOfColors.toNat)
    (fuel : Nat) (allColoring : List (List lbool))
    (hfuel : (solutions (N * c.m_nNumberOfColors.toNat)
      (c.m_solver.clauses ++ baseClauses N c.m_nNumberOfColors.toNat adj)).length < fuel) :
    ∃ (c' : Coloring) (found : List (List Bool)),
      c.givemeAllColoring oracle fuel allColoring
        = some (c', allColoring ++ found.map (List.map lbool.ofBool)) ∧
      found.Perm (solutions (N * c.m_nNumberOfColors.toNat)
        (c.m_solver.clauses ++ baseClauses N c.m_nNumberOfColors.toNat adj)) ∧
      c'.m_graph = c.m_graph ∧ c'.m_nNumberOfColors = c.m_nNumberOfColors ∧
      c'.m_solver.nVars = c.m_solver.nVars ∧
      solutions (N * c.m_nNumberOfColors.toNat) c'.m_solver.clauses = [] := by
  have hgen := c.addAllConstraints_eq N adj hg
  have hcs : ∀ a : List Bool, a.length = N * c.m_nNumberOfColors.toNat →
      satisfies a (c.addClauses (baseClauses N c.m_nNumberOfColors.toNat adj)).m_solver.clauses
        = true → ExactlyOne a N c.m_nNumberOfColors.toNat := by
    intro a _ hs
    have : satisfies a (c.m_solver.clauses ++ baseClauses N c.m_nNumberOfColors.toNat adj)
        = true := hs
    rw [satisfies_append, Bool.and_eq_true] at this
    exact ((satisfies_base a N _ adj).1 this.2).1
  obtain ⟨c', found, hrun, hperm, h1, h2, h3, h4⟩ :=
    solveLoop_spec oracle hO N c.m_nNumberOfColors.toNat fuel
      (c.addClauses (baseClauses N c.m_nNumberOfColors.toNat adj)) allColoring
      hg.1 rfl hV hcs hfuel
  refine ⟨c', found, ?_, hperm, h1, h2, h3, h4⟩
  unfold Coloring.givemeAllColoring
  rw [hgen]
  simp only [Option.bind_eq_bind, Option.some_bind]
  have e1 : (c.addClauses (baseClauses N c.m_nNumberOfColors.toNat adj)).m_solver.nVars
      = N * c.m_nNumberOfColors.toNat := hV
  have e2 : (c.addClauses (baseClauses N c.m_nNumberOfColors.toNat adj)).m_graph.getNumberOfNodes
      = (N : Int) := hg.1
  rw [e1, e2]
  exact hrun

theorem mem_allMaps (K n : Nat) : ∀ f : List Nat,
    f ∈ allMaps K n ↔ f.length = n ∧ ∀ x ∈ f, x < K := by
  induction n with
  | zero =>
    intro f
    simp only [allMaps, List.mem_singleton]
    constructor
    · intro h; simp [h]
    · intro h; exact List.length_eq_zero.1 h.1
  | succ n ih =>
    intro f
    simp only [allMaps, List.mem_flatMap, List.mem_map, List.mem_range, ih]
    constructor
    · rintro ⟨g, ⟨hg1, hg2⟩, c, hc, rfl⟩
      refine ⟨by simp [hg1], ?_⟩
      intro x hx
      rcases List.mem_cons.1 hx with h | h
      · rw [h]; exact hc
      · exact hg2 x h
    · rintro ⟨h1, h2⟩
      cases f with
      | nil => simp at h1
      | cons x xs =>
        exact ⟨xs, ⟨by simpa using h1, fun y hy => h2 y (List.mem_cons_of_mem _ hy)⟩, x,
          h2 x (List.mem_cons_self _ _), rfl⟩

theorem allMaps_nodup (K n : Nat) : (allMaps K n).Nodup := by
  induction n with
  | zero => simp [allMaps]
  | succ n ih =>
    simp only [allMaps]
    rw [List.nodup_flatMap]
    constructor
    · intro f _
      exact (List.nodup_range K).map (fun a b h => by simpa using h)
    · refine List.Nodup.pairwise_of_forall_ne ih ?_
      intro f _ g _ hfg
      simp only [Function.onFun]
      intro x hx1 hx2
      simp only [List.mem_map, List.mem_range] at hx1 hx2
      obtain ⟨c1, _, rfl⟩ := hx1
      obtain ⟨c2, _, h2⟩ := hx2
      simp only [List.cons.injEq] at h2
      exact hfg h2.2.symm

theorem validColorings_nodup (N K : Nat) (edges : List (Nat × Nat)) :
    (validColorings N K edges).Nodup :=
  (allMaps_nodup K N).filter _

theorem mem_validColorings (N K : Nat) (edges : List (Nat × Nat)) (f : List Nat) :
    f ∈ validColorings N K edges ↔
      f.length = N ∧ (∀ x ∈ f, x < K) ∧ ∀ e ∈ edges, f.getD e.1 0 ≠ f.getD e.2 0 := by
  simp [validColorings, mem_allMaps, properColoring, and_assoc]

theorem decode_map_ofBool (N K : Nat) (m : List Bool) :
    decode N K (m.map lbool.ofBool) = (List.range N).map (fun n => colorFn m N K n) := by
  unfold decode colorFn firstColor
  apply List.map_congr_left
  intro n _
  congr 2
  funext c
  have := getD_map_ofBool m (c * N + n)
  unfold hasColor
  cases h : m.getD (c * N + n) false
  · have h2 : ¬ (m.map lbool.ofBool).getD (c * N + n) lbool.l_Undef = lbool.l_True := by
      rw [this, h]; simp
    simpa using h2
  · have h2 : (m.map lbool.ofBool).getD (c * N + n) lbool.l_Undef = lbool.l_True := by
      rw [this, h]
    simpa using h2

theorem getD_map_range (N n : Nat) (g : Nat → Nat) (hn : n < N) :
    ((List.range N).map g).getD n 0 = g n := by
  simp [List.getD_eq_getElem?_getD, List.getElem?_map, List.getElem?_range hn]

theorem map_range_getD (f : List Nat) : (List.range f.length).map (fun n => f.getD n 0) = f := by
  apply List.ext_getElem
  · simp
  · intro i h1 h2
    simp [List.getD_eq_getElem?_getD, List.getElem?_eq_getElem h2]

theorem solutions_decode_perm (N K : Nat) (edges : List (Nat × Nat))
    (hE : ∀ e ∈ edges, e.1 ≤ e.2 ∧ e.2 < N) :
    ((solutions (N * K) (baseClauses N K (adjOf N edges))).map
      (fun m => decode N K (m.map lbool.ofBool))).Perm (validColorings N K edges) := by
  have hex : ∀ m, m ∈ solutions (N * K) (baseClauses N K (adjOf N edges)) →
      ExactlyOne m N K := fun m hm =>
    ((satisfies_base m N K _).1 ((mem_solutions _ _ m).1 hm).2).1
  refine (List.perm_ext_iff_of_nodup ?_ (validColorings_nodup N K edges)).2 ?_
  · refine List.Nodup.map_on ?_ (solutions_nodup _ _)
    intro m hm m' hm' heq
    rw [decode_map_ofBool, decode_map_ofBool, List.map_inj_left] at heq
    refine eq_of_same_colors m m' N K ((mem_solutions _ _ m).1 hm).1
      ((mem_solutions _ _ m').1 hm').1 (hex m hm) (hex m' hm') ?_
    intro n hn col hcol
    have h1 : colorFn m' N K n = col := by simp [colorFn, hcol]
    have h2 := heq n (List.mem_range.2 hn)
    have h3 := colorFn_spec m N K n (hex m hm) hn
    have h4 := firstColor_spec m' N K n col hcol
    exact (h3.2 col h4.1).2 (h1.symm.trans h2.symm)
  · intro f
    rw [mem_validColorings, List.mem_map]
    constructor
    · rintro ⟨m, hm, rfl⟩
      rw [decode_map_ofBool]
      have hs := (mem_solutions _ _ m).1 hm
      refine ⟨by simp, ?_, ?_⟩
      · intro x hx
        simp only [List.mem_map, List.mem_range] at hx
        obtain ⟨n, hn, rfl⟩ := hx
        exact (colorFn_spec m N K n (hex m hm) hn).1
      · intro e he
        have hb := hE e he
        rw [getD_map_range N e.1 _ (lt_of_le_of_lt hb.1 hb.2), getD_map_range N e.2 _ hb.2]
        exact proper_of_satisfies m N K edges hE hs.2 e he
    · rintro ⟨hlen, hlt, hprop⟩
      have hf : ∀ n, n < N → f.getD n 0 < K := by
        intro n hn
        have hn2 : n < f.length := by omega
        have : f.getD n 0 = f[n] := by
          simp [List.getD_eq_getElem?_getD, List.getElem?_eq_getElem hn2]
        rw [this]
        exact hlt _ (List.getElem_mem _)
      refine ⟨encode (fun n => f.getD n 0) N K, ?_, ?_⟩
      · rw [mem_solutions]
        exact ⟨encode_length _ N K, encode_satisfies _ N K edges hE hf hprop⟩
      · rw [decode_map_ofBool]
        have : (List.range N).map (fun n => colorFn (encode (fun n => f.getD n 0) N K) N K n)
            = (List.range N).map (fun n => f.getD n 0) := by
          apply List.map_congr_left
          intro n hn
          exact colorFn_encode _ N K n hf (List.mem_range.1 hn)
        rw [this, ← hlen]
        exact map_range_getD f

theorem Coloring.new_nVars (N : Nat) (adjI : List (List Int)) (k : Int) :
    (Coloring.new ⟨N, adjI⟩ k).m_solver.nVars = N * k.toNat := by
  rw [Coloring.new_solver]
  simp [Nat.mul_comm]

theorem Coloring.new_clauses (g : Graph) (k : Int) :
    (Coloring.new g k).m_solver.clauses = [] := by
  rw [Coloring.new_solver]

theorem fresh_enumeration (oracle : Nat → List (List Lit) → Option (List Bool))
    (hO : OracleCorrect oracle) (N : Nat) (edges : List (Nat × Nat))
    (hE : ∀ e ∈ edges, e.1 ≤ e.2 ∧ e.2 < N) (k : Int) (fuel : Nat)
    (allColoring : List (List lbool))
    (hfuel : (validColorings N k.toNat edges).length < fuel) :
    ∃ (g : Graph) (c' : Coloring) (found : List (List Bool)),
      Graph.build N (castEdges edges) = some g ∧
      (Coloring.new g k).givemeAllColoring oracle fuel allColoring
        = some (c', allColoring ++ found.map (List.map lbool.ofBool)) ∧
      found.Perm (solutions (N * k.toNat) (baseClauses N k.toNat (adjOf N edges))) ∧
      ((found.map (List.map lbool.ofBool)).map (decode N k.toNat)).Perm
        (validColorings N k.toNat edges) := by
  have hperm := solutions_decode_perm N k.toNat edges hE
  have hlen := hperm.length_eq
  rw [List.length_map] at hlen
  have hrep := adjOf_represents N edges hE
  have hspec := Coloring.givemeAllColoring_spec oracle hO N (adjOf N edges)
    (Coloring.new ⟨N, (adjOf N edges).map (List.map Int.ofNat)⟩ k) hrep
    (Coloring.new_nVars N _ k) fuel allColoring
  rw [Coloring.new_clauses] at hspec
  simp only [List.nil_append] at hspec
  have hk : (Coloring.new ⟨N, (adjOf N edges).map (List.map Int.ofNat)⟩ k).m_nNumberOfColors
      = k := rfl
  rw [hk] at hspec
  obtain ⟨c', found, hrun, hp, _, _, _, _⟩ := hspec (by rw [hlen]; exact hfuel)
  refine ⟨_, c', found, Graph.build_eq N edges hE, hrun, hp, ?_⟩
  rw [List.map_map]
  exact (hp.map _).trans hperm

/-! ## Properties of the encoder -/

theorem fresh_addAllConstraints (N : Nat) (edges : List (Nat × Nat))
    (hE : ∀ e ∈ edges, e.1 ≤ e.2 ∧ e.2 < N) (k : Int) :
    (Coloring.new ⟨N, (adjOf N edges).map (List.map Int.ofNat)⟩ k).addAllConstraints
      = some ⟨⟨N, (adjOf N edges).map (List.map Int.ofNat)⟩, k,
          ⟨N * k.toNat, baseClauses N k.toNat (adjOf N edges), []⟩⟩ := by
  have h := Coloring.addAllConstraints_eq
    (Coloring.new ⟨N, (adjOf N edges).map (List.map Int.ofNat)⟩ k) N (adjOf N edges)
    (adjOf_represents N edges hE)
  rw [h]
  have hv := Coloring.new_nVars N ((adjOf N edges).map (List.map Int.ofNat)) k
  have hs := Coloring.new_solver ⟨N, (adjOf N edges).map (List.map Int.ofNat)⟩ k
  simp only [Coloring.addClauses, hs, List.nil_append] at hv ⊢
  simp only [Coloring.new, hv]

/-- C1: for a graph built by `Graph(N)` and calls `addEdge(a, b)` with `a ≤ b < N`, and any
number of colors `k` (in particular `k ≥ 1`), `isColorable()` on a fresh `Coloring(G, k)`
returns, and returns true exactly when some map from the nodes to the colors `0..k-1` gives
different colors to the two endpoints of every stored edge. -/
theorem isColorable_iff_exists_coloring (oracle : Nat → List (List Lit) → Option (List Bool))
    (hO : OracleCorrect oracle) (N : Nat) (edges : List (Nat × Nat))
    (hE : ∀ e ∈ edges, e.1 ≤ e.2 ∧ e.2 < N) (k : Int) (hk : 1 ≤ k) :
    ∃ (g : Graph) (r : Bool) (c' : Coloring),
      Graph.build N (castEdges edges) = some g ∧
      (Coloring.new g k).isColorable oracle = some (r, c') ∧
      (r = true ↔ ∃ f : Nat → Nat,
        (∀ n, n < N → (f n : Int) < k) ∧ ∀ e ∈ edges, f e.1 ≠ f e.2) := by
  have hgen := fresh_addAllConstraints N edges hE k
  obtain ⟨hsome, hnone⟩ := hO (N * k.toNat) (baseClauses N k.toNat (adjOf N edges))
  have hkk : ∀ x : Nat, (x : Int) < k ↔ x < k.toNat := fun x => by omega
  refine ⟨_, (Solver.solve oracle ⟨N * k.toNat, baseClauses N k.toNat (adjOf N edges), []⟩).1,
    ⟨⟨N, (adjOf N edges).map (List.map Int.ofNat)⟩, k,
      (Solver.solve oracle ⟨N * k.toNat, baseClauses N k.toNat (adjOf N edges), []⟩).2⟩,
    Graph.build_eq N edges hE, ?_, ?_⟩
  · unfold Coloring.isColorable
    rw [hgen]
    rfl
  · simp only [Solver.solve]
    cases hor : oracle (N * k.toNat) (baseClauses N k.toNat (adjOf N edges)) with
    | none =>
      simp only [Bool.false_eq_true, false_iff, not_exists, not_and]
      intro f hf hp
      have h1 := encode_satisfies f N k.toNat edges hE (fun n hn => (hkk _).1 (hf n hn)) hp
      have h2 := hnone hor (encode f N k.toNat) (encode_length f N k.toNat)
      rw [h1] at h2
      exact absurd h2 (by simp)
    | some m =>
      simp only [true_iff]
      obtain ⟨_, hsat⟩ := hsome m hor
      have hex := ((satisfies_base m N k.toNat _).1 hsat).1
      refine ⟨fun n => colorFn m N k.toNat n, ?_, proper_of_satisfies m N k.toNat edges hE hsat⟩
      intro n hn
      exact (hkk _).2 (colorFn_spec m N k.toNat n hex hn).1

/-- Witness of C1: the two-node graph with the edge (0,1) and two colors, with exhaustive
search as the oracle. -/
theorem isColorable_iff_exists_coloring_witness :
    OracleCorrect bruteForce ∧ (∀ e ∈ [((0 : Nat), (1 : Nat))], e.1 ≤ e.2 ∧ e.2 < 2) ∧
    ∃ (g : Graph) (r : Bool) (c' : Coloring),
      Graph.build (2 : Nat) (castEdges [(0, 1)]) = some g ∧
      (Coloring.new g 2).isColorable bruteForce = some (r, c') ∧
      (r = true ↔ ∃ f : Nat → Nat,
        (∀ n, n < 2 → (f n : Int) < 2) ∧ ∀ e ∈ [((0 : Nat), (1 : Nat))], f e.1 ≠ f e.2) :=
  ⟨bruteForce_correct, by decide,
    isColorable_iff_exists_coloring bruteForce bruteForce_correct 2 [(0, 1)] (by decide) 2
      (by decide)⟩

theorem appended_exactlyOne (N K : Nat) (adj : List (List Nat)) (m : List Bool)
    (hs : satisfies m (baseClauses N K adj) = true) (n : Nat) (hn : n < N) :
    ∃! c, c < K ∧ (m.map lbool.ofBool).getD (c * N + n) lbool.l_Undef = lbool.l_True := by
  obtain ⟨c, hc, huniq⟩ := ((satisfies_base m N K adj).1 hs).1 n hn
  refine ⟨c, ⟨hc.1, (getD_map_ofBool m _).2 hc.2⟩, ?_⟩
  rintro d ⟨hd, hdv⟩
  exact huniq d ⟨hd, (getD_map_ofBool m _).1 hdv⟩

/-- C2: on a fresh `Coloring(G, k)`, `k ≥ 0`, `givemeAllColoring` returns (given fuel above
the number of valid colorings), every valid `k`-coloring of `G` is the decoding of an
appended assignment, and the number of appended assignments is the number of valid
`k`-colorings of `G`. -/
theorem givemeAllColoring_complete (oracle : Nat → List (List Lit) → Option (List Bool))
    (hO : OracleCorrect oracle) (N : Nat) (edges : List (Nat × Nat))
    (hE : ∀ e ∈ edges, e.1 ≤ e.2 ∧ e.2 < N) (k : Int) (hk : 0 ≤ k) (fuel : Nat)
    (allColoring : List (List lbool))
    (hfuel : (validColorings N k.toNat edges).length < fuel) :
    ∃ (g : Graph) (c' : Coloring) (appended : List (List lbool)),
      Graph.build N (castEdges edges) = some g ∧
      (Coloring.new g k).givemeAllColoring oracle fuel allColoring
        = some (c', allColoring ++ appended) ∧
      (∀ f : List Nat, f.length = N → (∀ x ∈ f, (x : Int) < k) →
        (∀ e ∈ edges, f.getD e.1 0 ≠ f.getD e.2 0) →
        f ∈ appended.map (decode N k.toNat)) ∧
      appended.length = (validColorings N k.toNat edges).length := by
  obtain ⟨g, c', found, hb, hrun, _, hperm⟩ :=
    fresh_enumeration oracle hO N edges hE k fuel allColoring hfuel
  refine ⟨g, c', _, hb, hrun, ?_, ?_⟩
  · intro f hlen hlt hp
    refine hperm.mem_iff.2 ((mem_validColorings N k.toNat edges f).2 ⟨hlen, ?_, hp⟩)
    intro x hx
    have := hlt x hx
    omega
  · have := hperm.length_eq
    rwa [List.length_map] at this

/-- Witness of C2: the two-node graph with the edge (0,1) and two colors. -/
theorem givemeAllColoring_complete_witness :
    OracleCorrect bruteForce ∧ (∀ e ∈ [((0 : Nat), (1 : Nat))], e.1 ≤ e.2 ∧ e.2 < 2) ∧
    (0 : Int) ≤ 2 ∧ (validColorings 2 (2 : Int).toNat [(0, 1)]).length < 3 ∧
    ∃ (g : Graph) (c' : Coloring) (appended : List (List lbool)),
      Graph.build (2 : Nat) (castEdges [(0, 1)]) = some g ∧
      (Coloring.new g 2).givemeAllColoring bruteForce 3 [] = some (c', [] ++ appended) ∧
      (∀ f : List Nat, f.length = 2 → (∀ x ∈ f, (x : Int) < 2) →
        (∀ e ∈ [((0 : Nat), (1 : Nat))], f.getD e.1 0 ≠ f.getD e.2 0) →
        f ∈ appended.map (decode 2 (2 : Int).toNat)) ∧
      appended.length = (validColorings 2 (2 : Int).toNat [(0, 1)]).length :=
  ⟨bruteForce_correct, by decide, by decide, by decide,
    givemeAllColoring_complete bruteForce bruteForce_correct 2 [(0, 1)] (by decide) 2
      (by decide) 3 [] (by decide)⟩

/-- C3: every assignment appended by `givemeAllColoring` on a fresh encoder is a valid
`k`-coloring: each node has exactly one of its `k` variables (index `c * N + n`) true in
it, and the colors decoded for the endpoints of every stored edge differ. -/
theorem givemeAllColoring_sound (oracle : Nat → List (List Lit) → Option (List Bool))
    (hO : OracleCorrect oracle) (N : Nat) (edges : List (Nat × Nat))
    (hE : ∀ e ∈ edges, e.1 ≤ e.2 ∧ e.2 < N) (k : Int) (fuel : Nat)
    (allColoring : List (List lbool))
    (hfuel : (validColorings N k.toNat edges).length < fuel) :
    ∃ (g : Graph) (c' : Coloring) (appended : List (List lbool)),
      Graph.build N (castEdges edges) = some g ∧
      (Coloring.new g k).givemeAllColoring oracle fuel allColoring
        = some (c', allColoring ++ appended) ∧
      ∀ a ∈ appended,
        (∀ n, n < N → ∃! c, c < k.toNat ∧
          a.getD (c * N + n) lbool.l_Undef = lbool.l_True) ∧
        (∀ e ∈ edges, (decode N k.toNat a).getD e.1 0 ≠ (decode N k.toNat a).getD e.2 0) := by
  obtain ⟨g, c', found, hb, hrun, hp, hperm⟩ :=
    fresh_enumeration oracle hO N edges hE k fuel allColoring hfuel
  refine ⟨g, c', _, hb, hrun, ?_⟩
  intro a ha
  obtain ⟨m, hm, rfl⟩ := List.mem_map.1 ha
  have hs := ((mem_solutions _ _ m).1 (hp.mem_iff.1 hm)).2
  refine ⟨fun n hn => appended_exactlyOne N k.toNat _ m hs n hn, ?_⟩
  have hv : decode N k.toNat (m.map lbool.ofBool) ∈ validColorings N k.toNat edges :=
    hperm.mem_iff.1 (List.mem_map.2 ⟨_, ha, rfl⟩)
  exact ((mem_validColorings N k.toNat edges _).1 hv).2.2

/-- Witness of C3: the two-node graph with the edge (0,1) and two colors. -/
theorem givemeAllColoring_sound_witness :
    OracleCorrect bruteForce ∧ (∀ e ∈ [((0 : Nat), (1 : Nat))], e.1 ≤ e.2 ∧ e.2 < 2) ∧
    (validColorings 2 (2 : Int).toNat [(0, 1)]).length < 3 ∧
    ∃ (g : Graph) (c' : Coloring) (appended : List (List lbool)),
      Graph.build (2 : Nat) (castEdges [(0, 1)]) = some g ∧
      (Coloring.new g 2).givemeAllColoring bruteForce 3 [] = some (c', [] ++ appended) ∧
      ∀ a ∈ appended,
        (∀ n, n < 2 → ∃! c, c < (2 : Int).toNat ∧
          a.getD (c * 2 + n) lbool.l_Undef = lbool.l_True) ∧
        (∀ e ∈ [((0 : Nat), (1 : Nat))],
          (decode 2 (2 : Int).toNat a).getD e.1 0 ≠ (decode 2 (2 : Int).toNat a).getD e.2 0) :=
  ⟨bruteForce_correct, by decide, by decide,
    givemeAllColoring_sound bruteForce bruteForce_correct 2 [(0, 1)] (by decide) 2 3 []
      (by decide)⟩

/-- C4: the sequence appended by one call of `givemeAllColoring` on a fresh encoder has no
two positions that decode to the same node-to-color map. -/
theorem givemeAllColoring_nodup (oracle : Nat → List (List Lit) → Option (List Bool))
    (hO : OracleCorrect oracle) (N : Nat) (edges : List (Nat × Nat))
    (hE : ∀ e ∈ edges, e.1 ≤ e.2 ∧ e.2 < N) (k : Int) (fuel : Nat)
    (allColoring : List (List lbool))
    (hfuel : (validColorings N k.toNat edges).length < fuel) :
    ∃ (g : Graph) (c' : Coloring) (appended : List (List lbool)),
      Graph.build N (castEdges edges) = some g ∧
      (Coloring.new g k).givemeAllColoring oracle fuel allColoring
        = some (c', allColoring ++ appended) ∧
      ∀ i j (hi : i < appended.length) (hj : j < appended.length),
        decode N k.toNat appended[i] = decode N k.toNat appended[j] → i = j := by
  obtain ⟨g, c', found, hb, hrun, _, hperm⟩ :=
    fresh_enumeration oracle hO N edges hE k fuel allColoring hfuel
  refine ⟨g, c', _, hb, hrun, ?_⟩
  have hnd : ((found.map (List.map lbool.ofBool)).map (decode N k.toNat)).Nodup :=
    hperm.nodup_iff.2 (validColorings_nodup N k.toNat edges)
  intro i j hi hj heq
  have hi2 : i < ((found.map (List.map lbool.ofBool)).map (decode N k.toNat)).length := by
    simpa using hi
  have hj2 : j < ((found.map (List.map lbool.ofBool)).map (decode N k.toNat)).length := by
    simpa using hj
  refine (@List.Nodup.getElem_inj_iff _ _ hnd i hi2 j hj2).1 ?_
  simpa using heq

/-- Witness of C4: the two-node graph with the edge (0,1) and two colors. -/
theorem givemeAllColoring_nodup_witness :
    OracleCorrect bruteForce ∧ (∀ e ∈ [((0 : Nat), (1 : Nat))], e.1 ≤ e.2 ∧ e.2 < 2) ∧
    (validColorings 2 (2 : Int).toNat [(0, 1)]).length < 3 ∧
    ∃ (g : Graph) (c' : Coloring) (appended : List (List lbool)),
      Graph.build (2 : Nat) (castEdges [(0, 1)]) = some g ∧
      (Coloring.new g 2).givemeAllColoring bruteForce 3 [] = some (c', [] ++ appended) ∧
      ∀ i j (hi : i < appended.length) (hj : j < appended.length),
        decode 2 (2 : Int).toNat appended[i] = decode 2 (2 : Int).toNat appended[j] → i = j :=
  ⟨bruteForce_correct, by decide, by decide,
    givemeAllColoring_nodup bruteForce bruteForce_correct 2 [(0, 1)] (by decide) 2 3 []
      (by decide)⟩

theorem nodeLit_inj (N n c c' : Nat) (s s' : Bool) (hN : 0 < N)
    (h : nodeLit N n c s = nodeLit N n c' s') : c = c' ∧ s = s' := by
  simp only [nodeLit, mkLit, Lit.mk.injEq] at h
  have h1 : c * N + n = c' * N + n := by exact_mod_cast h.1
  have h2 : c * N = c' * N := by omega
  exact ⟨Nat.eq_of_mul_eq_mul_right hN h2, h.2⟩

theorem mem_atMostOneClauses (N K n : Nat) (cl : List Lit) :
    cl ∈ atMostOneClauses N K n ↔
      ∃ c1, c1 < K ∧ ∃ c2, c2 < c1 ∧ cl = [nodeLit N n c1 true, nodeLit N n c2 true] := by
  simp only [atMostOneClauses, List.mem_flatMap, List.mem_range, List.mem_map]
  constructor
  · rintro ⟨c1, h1, c2, h2, rfl⟩; exact ⟨c1, h1, c2, h2, rfl⟩
  · rintro ⟨c1, h1, c2, h2, rfl⟩; exact ⟨c1, h1, c2, h2, rfl⟩

theorem atMostOneClauses_nodup (N K n : Nat) (hN : 0 < N) :
    (atMostOneClauses N K n).Nodup := by
  unfold atMostOneClauses
  rw [List.nodup_flatMap]
  constructor
  · intro c1 _
    refine (List.nodup_range c1).map ?_
    intro a b h
    simp only [List.cons.injEq, and_true] at h
    exact (nodeLit_inj N n a b true true hN h.2).1
  · refine List.Nodup.pairwise_of_forall_ne (List.nodup_range K) ?_
    intro a _ b _ hab
    simp only [Function.onFun]
    intro x hx1 hx2
    simp only [List.mem_map, List.mem_range] at hx1 hx2
    obtain ⟨c2, _, rfl⟩ := hx1
    obtain ⟨c3, _, h3⟩ := hx2
    simp only [List.cons.injEq, and_true] at h3
    exact hab (nodeLit_inj N n b a true true hN h3.1).1.symm

theorem atMostOneClauses_succ (N K n : Nat) :
    atMostOneClauses N (K + 1) n = atMostOneClauses N K n ++
      (List.range K).map (fun c2 => [nodeLit N n K true, nodeLit N n c2 true]) := by
  simp [atMostOneClauses, List.range_succ, List.flatMap_append]

theorem atMostOneClauses_length_two (N K n : Nat) :
    2 * (atMostOneClauses N K n).length = K * (K - 1) := by
  induction K with
  | zero => simp [atMostOneClauses]
  | succ K ih =>
    rw [atMostOneClauses_succ, List.length_append, List.length_map, List.length_range,
      Nat.mul_add, ih]
    cases K with
    | zero => simp
    | succ K => simp only [Nat.add_sub_cancel]; ring

theorem atMostOneClauses_length (N K n : Nat) :
    (atMostOneClauses N K n).length = K * (K - 1) / 2 := by
  have := atMostOneClauses_length_two N K n
  omega

theorem atLeastOne_not_mem_atMostOne (N K n : Nat) :
    atLeastOneClause N K n ∉ atMostOneClauses N K n := by
  intro h
  obtain ⟨c1, _, c2, _, heq⟩ := (mem_atMostOneClauses N K n _).1 h
  unfold atLeastOneClause at heq
  cases K with
  | zero => simp at heq
  | succ K =>
    rw [List.range_succ_eq_map] at heq
    simp only [List.map_cons, List.cons.injEq] at heq
    have := heq.1
    simp [nodeLit, mkLit] at this

theorem baseClauses_adjOf (N K : Nat) (edges : List (Nat × Nat)) :
    baseClauses N K (adjOf N edges) = (List.range N).flatMap (fun n =>
      oneColorClauses N K n ++ (edges.filter (fun e => e.1 = n)).flatMap (fun e =>
        (List.range K).map (fun col =>
          [mkLit ((col * N + e.1 : Nat) : Int) true, mkLit ((col * N + e.2 : Nat) : Int) true]))) := by
  unfold baseClauses
  apply List.flatMap_congr
  intro n hn
  rw [adjOf_getD N edges n (List.mem_range.1 hn), List.flatMap_map]
  congr 1
  apply List.flatMap_congr
  intro e he
  have : e.1 = n := by simpa using (List.mem_filter.1 he).2
  rw [this]
  rfl

theorem satisfies_edgePart (a : List Bool) (N K : Nat) (edges : List (Nat × Nat))
    (hE : ∀ e ∈ edges, e.1 ≤ e.2 ∧ e.2 < N) :
    satisfies a ((List.range N).flatMap (fun n =>
      (edges.filter (fun e => e.1 = n)).flatMap (fun e => (List.range K).map (fun col =>
        [mkLit ((col * N + e.1 : Nat) : Int) true, mkLit ((col * N + e.2 : Nat) : Int) true]))))
      = true ↔
    ∀ e ∈ edges, ∀ col, col < K →
      ¬ (a.getD (col * N + e.1) false = true ∧ a.getD (col * N + e.2) false = true) := by
  rw [satisfies_flatMap]
  simp only [satisfies_flatMap, List.mem_range, List.mem_filter, decide_eq_true_eq]
  constructor
  · intro h e he col hcol
    have hb := hE e he
    have := (satisfies_edge a N K e.1 e.2).1 (h e.1 (lt_of_le_of_lt hb.1 hb.2) e ⟨he, rfl⟩)
    exact this col hcol
  · intro h n _ e he
    exact (satisfies_edge a N K e.1 e.2).2 (fun col hcol => h e he.1 col hcol)

theorem solutions_eq_nil_append (V : Nat) (cs B : List (List Lit))
    (h : solutions V cs = []) : solutions V (cs ++ B) = [] := by
  unfold solutions at h ⊢
  rw [List.filter_eq_nil_iff] at h ⊢
  intro a ha
  have := h a ha
  rw [satisfies_append]
  simp only [Bool.and_eq_true, not_and]
  intro h1
  exact absurd h1 this

theorem solutions_length_eq_valid (N K : Nat) (edges : List (Nat × Nat))
    (hE : ∀ e ∈ edges, e.1 ≤ e.2 ∧ e.2 < N) :
    (solutions (N * K) (baseClauses N K (adjOf N edges))).length
      = (validColorings N K edges).length := by
  have := (solutions_decode_perm N K edges hE).length_eq
  rwa [List.length_map] at this

theorem fresh_isColorable (oracle : Nat → List (List Lit) → Option (List Bool))
    (hO : OracleCorrect oracle) (N : Nat) (edges : List (Nat × Nat))
    (hE : ∀ e ∈ edges, e.1 ≤ e.2 ∧ e.2 < N) (k : Int) :
    ∃ (r : Bool) (c1 : Coloring),
      (Coloring.new ⟨N, (adjOf N edges).map (List.map Int.ofNat)⟩ k).isColorable oracle
        = some (r, c1) ∧
      c1.m_graph = ⟨N, (adjOf N edges).map (List.map Int.ofNat)⟩ ∧
      c1.m_nNumberOfColors = k ∧ c1.m_solver.nVars = N * k.toNat ∧
      c1.m_solver.clauses = baseClauses N k.toNat (adjOf N edges) ∧
      (r = true ↔ validColorings N k.toNat edges ≠ []) := by
  have hgen := fresh_addAllConstraints N edges hE k
  obtain ⟨hsome, hnone⟩ := hO (N * k.toNat) (baseClauses N k.toNat (adjOf N edges))
  have hlen := solutions_length_eq_valid N k.toNat edges hE
  have hrun : (Coloring.new ⟨N, (adjOf N edges).map (List.map Int.ofNat)⟩ k).isColorable oracle
      = some ((Solver.solve oracle
          ⟨N * k.toNat, baseClauses N k.toNat (adjOf N edges), []⟩).1,
        ⟨⟨N, (adjOf N edges).map (List.map Int.ofNat)⟩, k,
          (Solver.solve oracle ⟨N * k.toNat, baseClauses N k.toNat (adjOf N edges), []⟩).2⟩) := by
    unfold Coloring.isColorable
    rw [hgen]
    rfl
  refine ⟨_, _, hrun, rfl, rfl, ?_, ?_, ?_⟩
  · simp only [Solver.solve]
    cases oracle (N * k.toNat) (baseClauses N k.toNat (adjOf N edges)) <;> rfl
  · simp only [Solver.solve]
    cases oracle (N * k.toNat) (baseClauses N k.toNat (adjOf N edges)) <;> rfl
  · simp only [Solver.solve]
    cases hor : oracle (N * k.toNat) (baseClauses N k.toNat (adjOf N edges)) with
    | none =>
      have hnil : solutions (N * k.toNat) (baseClauses N k.toNat (adjOf N edges)) = [] := by
        unfold solutions
        rw [List.filter_eq_nil_iff]
        intro a ha
        have := hnone hor a ((mem_allAssignments _ a).1 ha)
        simp [this]
      rw [hnil] at hlen
      have : validColorings N k.toNat edges = [] := List.length_eq_zero.1 hlen.symm
      simp [this]
    | some m =>
      obtain ⟨h1, h2⟩ := hsome m hor
      have hmem : m ∈ solutions (N * k.toNat) (baseClauses N k.toNat (adjOf N edges)) :=
        (mem_solutions _ _ m).2 ⟨h1, h2⟩
      have hpos := List.length_pos_of_mem hmem
      rw [hlen] at hpos
      simp only [true_iff]
      exact List.ne_nil_of_length_pos hpos

theorem fresh_two_calls (oracle : Nat → List (List Lit) → Option (List Bool))
    (hO : OracleCorrect oracle) (N : Nat) (edges : List (Nat × Nat))
    (hE : ∀ e ∈ edges, e.1 ≤ e.2 ∧ e.2 < N) (k : Int) (fuel : Nat)
    (allColoring : List (List lbool))
    (hfuel : (validColorings N k.toNat edges).length < fuel) :
    ∃ (c1 : Coloring) (first : List (List lbool)),
      (Coloring.new ⟨N, (adjOf N edges).map (List.map Int.ofNat)⟩ k).givemeAllColoring
        oracle fuel allColoring = some (c1, allColoring ++ first) ∧
      (first.map (decode N k.toNat)).Perm (validColorings N k.toNat edges) ∧
      ∀ (fuel2 : Nat) (other : List (List lbool)), 0 < fuel2 →
        ∃ c2 : Coloring, c1.givemeAllColoring oracle fuel2 other = some (c2, other) := by
  have hlen := solutions_length_eq_valid N k.toNat edges hE
  have hrep := adjOf_represents N edges hE
  have hspec := Coloring.givemeAllColoring_spec oracle hO N (adjOf N edges)
    (Coloring.new ⟨N, (adjOf N edges).map (List.map Int.ofNat)⟩ k) hrep
    (Coloring.new_nVars N _ k) fuel allColoring
  rw [Coloring.new_clauses] at hspec
  simp only [List.nil_append] at hspec
  have hk : (Coloring.new ⟨N, (adjOf N edges).map (List.map Int.ofNat)⟩ k).m_nNumberOfColors
      = k := rfl
  rw [hk] at hspec
  obtain ⟨c1, found, hrun, hp, hg, hkk, hv, hfin⟩ := hspec (by rw [hlen]; exact hfuel)
  refine ⟨c1, _, hrun, ?_, ?_⟩
  · rw [List.map_map]
    exact (hp.map _).trans (solutions_decode_perm N k.toNat edges hE)
  · intro fuel2 other hpos
    have hrep1 : c1.m_graph.Represents N (adjOf N edges) := by rw [hg]; exact hrep
    have hv1 : c1.m_solver.nVars = N * c1.m_nNumberOfColors.toNat := by
      rw [hv, hkk]; exact Coloring.new_nVars N _ k
    have hspec2 := Coloring.givemeAllColoring_spec oracle hO N (adjOf N edges) c1 hrep1 hv1
      fuel2 other
    rw [hkk] at hspec2
    have hnil := solutions_eq_nil_append (N * k.toNat) c1.m_solver.clauses
      (baseClauses N k.toNat (adjOf N edges)) hfin
    rw [hnil] at hspec2
    obtain ⟨c2, found2, hrun2, hp2, _⟩ := hspec2 (by simpa using hpos)
    have : found2 = [] := List.Perm.eq_nil hp2
    rw [this] at hrun2
    exact ⟨c2, by simpa using hrun2⟩

/-- C11, as stated, fails: on the one-node graph without edges and one color, the first
call of `givemeAllColoring` on a fresh encoder appends one coloring and the second call on
the same encoder appends none, so the two calls do not yield the same set. -/
theorem second_call_same_set_counterexample :
    ∃ (g : Graph) (c1 c2 : Coloring) (first second : List (List lbool)),
      Graph.build (1 : Nat) (castEdges []) = some g ∧
      (Coloring.new g 1).givemeAllColoring bruteForce 2 [] = some (c1, first) ∧
      c1.givemeAllColoring bruteForce 2 [] = some (c2, second) ∧
      first = [[lbool.l_True]] ∧ second = [] ∧
      ¬ (∀ a, a ∈ first ↔ a ∈ second) := by
  refine ⟨⟨1, [[]]⟩,
    ⟨⟨1, [[]]⟩, 1, ⟨1, [[mkLit 0 false], [mkLit 0 true]], []⟩⟩,
    ⟨⟨1, [[]]⟩, 1, ⟨1, [[mkLit 0 false], [mkLit 0 true], [mkLit 0 false]], []⟩⟩,
    [[lbool.l_True]], [], by decide, by decide, by decide, rfl, rfl, ?_⟩
  intro h
  have := (h [lbool.l_True]).1 (List.mem_singleton.2 rfl)
  simp at this

/-- C11, amended: on the same freshly constructed encoder the first call of
`givemeAllColoring` appends every valid coloring once, and a second call appends nothing
(the clauses blocking the colorings of the first call stay asserted): it returns the
vector it was given unchanged. -/
theorem second_call_appends_nothing (oracle : Nat → List (List Lit) → Option (List Bool))
    (hO : OracleCorrect oracle) (N : Nat) (edges : List (Nat × Nat))
    (hE : ∀ e ∈ edges, e.1 ≤ e.2 ∧ e.2 < N) (k : Int) (fuel fuel2 : Nat)
    (allColoring : List (List lbool))
    (hfuel : (validColorings N k.toNat edges).length < fuel) (hfuel2 : 0 < fuel2) :
    ∃ (g : Graph) (c1 c2 : Coloring) (first : List (List lbool)),
      Graph.build N (castEdges edges) = some g ∧
      (Coloring.new g k).givemeAllColoring oracle fuel allColoring
        = some (c1, allColoring ++ first) ∧
      (first.map (decode N k.toNat)).Perm (validColorings N k.toNat edges) ∧
      c1.givemeAllColoring oracle fuel2 (allColoring ++ first)
        = some (c2, allColoring ++ first) ∧
      ∀ other : List (List lbool), ∃ c3 : Coloring,
        c1.givemeAllColoring oracle fuel2 other = some (c3, other) := by
  obtain ⟨c1, first, hrun, hperm, hsecond⟩ :=
    fresh_two_calls oracle hO N edges hE k fuel allColoring hfuel
  obtain ⟨c2, hc2⟩ := hsecond fuel2 (allColoring ++ first) hfuel2
  exact ⟨_, c1, c2, first, Graph.build_eq N edges hE, hrun, hperm, hc2,
    fun other => hsecond fuel2 other hfuel2⟩

/-- Witness of the amended C11: the four-cycle of `main.cc` with two colors. -/
theorem second_call_appends_nothing_witness :
    OracleCorrect bruteForce ∧
    (∀ e ∈ [((0 : Nat), (1 : Nat)), (1, 2), (2, 3), (0, 3)], e.1 ≤ e.2 ∧ e.2 < 4) ∧
    (validColorings 4 (2 : Int).toNat [(0, 1), (1, 2), (2, 3), (0, 3)]).length < 3 ∧ 0 < 1 ∧
    ∃ (g : Graph) (c1 c2 : Coloring) (first : List (List lbool)),
      Graph.build (4 : Nat) (castEdges [(0, 1), (1, 2), (2, 3), (0, 3)]) = some g ∧
      (Coloring.new g 2).givemeAllColoring bruteForce 3 [] = some (c1, [] ++ first) ∧
      (first.map (decode 4 (2 : Int).toNat)).Perm
        (validColorings 4 (2 : Int).toNat [(0, 1), (1, 2), (2, 3), (0, 3)]) ∧
      c1.givemeAllColoring bruteForce 1 ([] ++ first) = some (c2, [] ++ first) ∧
      ∀ other : List (List lbool), ∃ c3 : Coloring,
        c1.givemeAllColoring bruteForce 1 other = some (c3, other) :=
  ⟨bruteForce_correct, by decide, by decide, by decide,
    second_call_appends_nothing bruteForce bruteForce_correct 4
      [(0, 1), (1, 2), (2, 3), (0, 3)] (by decide) 2 3 1 [] (by decide) (by decide)⟩

theorem validColorings_zero_colors (N : Nat) (edges : List (Nat × Nat)) (hN : 0 < N) :
    validColorings N 0 edges = [] := by
  cases N with
  | zero => omega
  | succ n => simp [validColorings, allMaps]

theorem map_eq_nil_of_perm_nil {α β : Type} (f : α → β) (l : List α)
    (h : (l.map f).Perm []) : l = [] := by
  have := List.Perm.eq_nil h
  simpa using this

/-- C12: for a graph with `nodeCount > 0` and `k = 0`, `isColorable()` returns false and
`givemeAllColoring` appends no coloring; `addOneColorConstraints` asserts for each node
the empty clause, and no assignment satisfies the clause set. -/
theorem zero_colors_not_colorable (oracle : Nat → List (List Lit) → Option (List Bool))
    (hO : OracleCorrect oracle) (N : Nat) (edges : List (Nat × Nat))
    (hE : ∀ e ∈ edges, e.1 ≤ e.2 ∧ e.2 < N) (hN : 0 < N) (fuel : Nat) (hfuel : 0 < fuel)
    (allColoring : List (List lbool)) :
    ∃ (g : Graph) (c1 c2 : Coloring),
      Graph.build N (castEdges edges) = some g ∧
      (Coloring.new g 0).isColorable oracle = some (false, c1) ∧
      (Coloring.new g 0).givemeAllColoring oracle fuel allColoring = some (c2, allColoring) ∧
      (∀ n, n < N → ∃ c' : Coloring, (Coloring.new g 0).addOneColorConstraints n = some c' ∧
        c'.m_solver.clauses = (Coloring.new g 0).m_solver.clauses ++ [[]]) ∧
      (∀ a : List Bool, satisfies a c1.m_solver.clauses = false) := by
  have hval : validColorings N (0 : Int).toNat edges = [] := validColorings_zero_colors N edges hN
  obtain ⟨r, c1, hrun, _, _, _, hcl, hiff⟩ := fresh_isColorable oracle hO N edges hE 0
  have hr : r = false := by
    cases r with
    | false => rfl
    | true => exact absurd hval (hiff.1 rfl)
  subst hr
  obtain ⟨c2, first, hrun2, hperm, _⟩ :=
    fresh_two_calls oracle hO N edges hE 0 fuel allColoring (by rw [hval]; exact hfuel)
  rw [hval] at hperm
  have hfirst : first = [] := map_eq_nil_of_perm_nil _ first hperm
  rw [hfirst, List.append_nil] at hrun2
  refine ⟨_, c1, c2, Graph.build_eq N edges hE, hrun, hrun2, ?_, ?_⟩
  · intro n hn
    refine ⟨_, Coloring.addOneColorConstraints_eq _ N n rfl hn, ?_⟩
    rfl
  · intro a
    rw [hcl]
    have h1 : oneColorClauses N (0 : Int).toNat 0 = [[]] := rfl
    have hmem : ([] : List Lit) ∈ baseClauses N (0 : Int).toNat (adjOf N edges) := by
      unfold baseClauses
      rw [List.mem_flatMap]
      refine ⟨0, List.mem_range.2 hN, ?_⟩
      rw [List.mem_append]
      left
      rw [h1]
      exact List.mem_singleton.2 rfl
    cases hs : satisfies a (baseClauses N (0 : Int).toNat (adjOf N edges)) with
    | false => rfl
    | true =>
      unfold satisfies at hs
      rw [List.all_eq_true] at hs
      have := hs [] hmem
      simp [clauseHolds] at this

/-- Witness of C12: two nodes joined by an edge and no color. -/
theorem zero_colors_not_colorable_witness :
    OracleCorrect bruteForce ∧ (∀ e ∈ [((0 : Nat), (1 : Nat))], e.1 ≤ e.2 ∧ e.2 < 2) ∧
    0 < 2 ∧ 0 < 1 ∧
    ∃ (g : Graph) (c1 c2 : Coloring),
      Graph.build (2 : Nat) (castEdges [(0, 1)]) = some g ∧
      (Coloring.new g 0).isColorable bruteForce = some (false, c1) ∧
      (Coloring.new g 0).givemeAllColoring bruteForce 1 [] = some (c2, []) ∧
      (∀ n : Nat, n < 2 → ∃ c' : Coloring,
        (Coloring.new g 0).addOneColorConstraints (n : Int) = some c' ∧
        c'.m_solver.clauses = (Coloring.new g 0).m_solver.clauses ++ [[]]) ∧
      (∀ a : List Bool, satisfies a c1.m_solver.clauses = false) :=
  ⟨bruteForce_correct, by decide, by decide, by decide,
    zero_colors_not_colorable bruteForce bruteForce_correct 2 [(0, 1)] (by decide)
      (by decide) 1 (by decide) []⟩

theorem oracle_no_clause (oracle : Nat → List (List Lit) → Option (List Bool))
    (hO : OracleCorrect oracle) : oracle 0 [] = some [] := by
  obtain ⟨hsome, hnone⟩ := hO 0 []
  cases h : oracle 0 [] with
  | none =>
    have := hnone h [] rfl
    simp [satisfies] at this
  | some m =>
    have := (hsome m h).1
    rw [List.length_eq_zero.1 this]

theorem oracle_empty_clause (oracle : Nat → List (List Lit) → Option (List Bool))
    (hO : OracleCorrect oracle) : oracle 0 [[]] = none := by
  obtain ⟨hsome, _⟩ := hO 0 [[]]
  cases h : oracle 0 [[]] with
  | none => rfl
  | some m =>
    have := (hsome m h).2
    simp [satisfies, clauseHolds] at this

/-- C13: for the graph without nodes and every `k` (in particular `k ≥ 0`),
`isColorable()` returns true and
`givemeAllColoring` on a fresh encoder appends exactly one coloring, the empty assignment;
the refinement clause built from it is the empty clause, after which the clause set is
`[[]]` and the loop stops. -/
theorem empty_graph_one_coloring (oracle : Nat → List (List Lit) → Option (List Bool))
    (hO : OracleCorrect oracle) (k : Int) (fuel : Nat) (hfuel : 2 ≤ fuel)
    (allColoring : List (List lbool)) :
    ∃ (g : Graph) (c1 c2 : Coloring),
      Graph.build 0 [] = some g ∧
      (Coloring.new g k).isColorable oracle = some (true, c1) ∧
      (Coloring.new g k).givemeAllColoring oracle fuel allColoring
        = some (c2, allColoring ++ [[]]) ∧
      c1.refinementClause 0 = some [] ∧
      c2.m_solver.clauses = [[]] := by
  have h1 := oracle_no_clause oracle hO
  have h2 := oracle_empty_clause oracle hO
  have hnew : Coloring.new ⟨0, []⟩ k = ⟨⟨0, []⟩, k, ⟨0, [], []⟩⟩ := by
    have := Coloring.new_solver ⟨0, []⟩ k
    simp only [Int.toNat_zero, Nat.mul_zero] at this
    have e : Coloring.new ⟨0, []⟩ k = ⟨⟨0, []⟩, k, (Coloring.new ⟨0, []⟩ k).m_solver⟩ := rfl
    rw [e, this]
  have hgen : (⟨⟨0, []⟩, k, ⟨0, [], []⟩⟩ : Coloring).addAllConstraints
      = some ⟨⟨0, []⟩, k, ⟨0, [], []⟩⟩ := by
    simp [Coloring.addAllConstraints, Graph.getNumberOfNodes, intRange]
  obtain ⟨f, rfl⟩ : ∃ f, fuel = f + 2 := ⟨fuel - 2, by omega⟩
  refine ⟨⟨0, []⟩, ⟨⟨0, []⟩, k, ⟨0, [], [].map lbool.ofBool⟩⟩,
    ⟨⟨0, []⟩, k, ⟨0, [[]], []⟩⟩, by decide, ?_, ?_, ?_, rfl⟩
  · rw [hnew]
    unfold Coloring.isColorable
    rw [hgen]
    simp [Solver.solve, h1]
  · rw [hnew]
    unfold Coloring.givemeAllColoring
    rw [hgen]
    simp only [Option.bind_eq_bind, Option.some_bind, Graph.getNumberOfNodes]
    unfold Coloring.solveLoop
    simp only [Solver.solve, h1, if_true]
    unfold Coloring.solveLoop
    simp [Solver.solve, Solver.addClause, h2, Coloring.refinementClause, intRange]
  · simp [Coloring.refinementClause, intRange]

/-- Witness of C13: the empty graph with three colors. -/
theorem empty_graph_one_coloring_witness :
    OracleCorrect bruteForce ∧ 2 ≤ 2 ∧
    ∃ (g : Graph) (c1 c2 : Coloring),
      Graph.build 0 [] = some g ∧
      (Coloring.new g 3).isColorable bruteForce = some (true, c1) ∧
      (Coloring.new g 3).givemeAllColoring bruteForce 2 [] = some (c2, [] ++ [[]]) ∧
      c1.refinementClause 0 = some [] ∧
      c2.m_solver.clauses = [[]] :=
  ⟨bruteForce_correct, by decide,
    empty_graph_one_coloring bruteForce bruteForce_correct 3 2 (by decide) []⟩

/-- C14: for the four-cycle built by `addEdge(0,1)`, `addEdge(1,2)`, `addEdge(2,3)`,
`addEdge(0,3)` and `k = 2`, `isColorable()` returns true and `givemeAllColoring` appends
exactly two colorings, which decode to the alternating assignments `0,1,0,1` and
`1,0,1,0`. -/
theorem four_cycle_two_colorings (oracle : Nat → List (List Lit) → Option (List Bool))
    (hO : OracleCorrect oracle) (fuel : Nat) (hfuel : 2 < fuel)
    (allColoring : List (List lbool)) :
    ∃ (g : Graph) (c1 c2 : Coloring) (appended : List (List lbool)),
      Graph.build (4 : Nat) (castEdges [(0, 1), (1, 2), (2, 3), (0, 3)]) = some g ∧
      (Coloring.new g 2).isColorable oracle = some (true, c1) ∧
      (Coloring.new g 2).givemeAllColoring oracle fuel allColoring
        = some (c2, allColoring ++ appended) ∧
      appended.length = 2 ∧
      (appended.map (decode 4 2)).Perm [[0, 1, 0, 1], [1, 0, 1, 0]] := by
  have hE : ∀ e ∈ [((0 : Nat), (1 : Nat)), (1, 2), (2, 3), (0, 3)], e.1 ≤ e.2 ∧ e.2 < 4 := by
    decide
  have hval : validColorings 4 (2 : Int).toNat [(0, 1), (1, 2), (2, 3), (0, 3)]
      = [[1, 0, 1, 0], [0, 1, 0, 1]] := by decide
  obtain ⟨r, c1, hrun, _, _, _, _, hiff⟩ := fresh_isColorable oracle hO 4 _ hE 2
  have hr : r = true := hiff.2 (by rw [hval]; simp)
  subst hr
  obtain ⟨c2, first, hrun2, hperm, _⟩ :=
    fresh_two_calls oracle hO 4 _ hE 2 fuel allColoring (by rw [hval]; exact hfuel)
  rw [hval] at hperm
  refine ⟨_, c1, c2, first, Graph.build_eq 4 _ hE, hrun, hrun2, ?_, ?_⟩
  · have := hperm.length_eq
    simpa using this
  · exact hperm.trans (List.Perm.swap _ _ _)

/-- Witness of C14: exhaustive search as the oracle, fuel 3. -/
theorem four_cycle_two_colorings_witness :
    OracleCorrect bruteForce ∧ 2 < 3 ∧
    ∃ (g : Graph) (c1 c2 : Coloring) (appended : List (List lbool)),
      Graph.build (4 : Nat) (castEdges [(0, 1), (1, 2), (2, 3), (0, 3)]) = some g ∧
      (Coloring.new g 2).isColorable bruteForce = some (true, c1) ∧
      (Coloring.new g 2).givemeAllColoring bruteForce 3 [] = some (c2, [] ++ appended) ∧
      appended.length = 2 ∧
      (appended.map (decode 4 2)).Perm [[0, 1, 0, 1], [1, 0, 1, 0]] :=
  ⟨bruteForce_correct, by decide,
    four_cycle_two_colorings bruteForce bruteForce_correct 3 (by decide) []⟩

/-- C15: for the triangle built by `addEdge(0,1)`, `addEdge(1,2)`, `addEdge(0,2)` on three
nodes, `isColorable()` returns false with `k = 2`; with `k = 3` it returns true and
`givemeAllColoring` appends exactly six colorings, which decode to the six permutations of
the colors `0, 1, 2`. -/
theorem triangle_colorings (oracle : Nat → List (List Lit) → Option (List Bool))
    (hO : OracleCorrect oracle) (fuel : Nat) (hfuel : 6 < fuel)
    (allColoring : List (List lbool)) :
    ∃ (g : Graph) (c1 c2 c3 : Coloring) (appended : List (List lbool)),
      Graph.build (3 : Nat) (castEdges [(0, 1), (1, 2), (0, 2)]) = some g ∧
      (Coloring.new g 2).isColorable oracle = some (false, c1) ∧
      (Coloring.new g 3).isColorable oracle = some (true, c2) ∧
      (Coloring.new g 3).givemeAllColoring oracle fuel allColoring
        = some (c3, allColoring ++ appended) ∧
      appended.length = 6 ∧
      (appended.map (decode 3 3)).Perm [0, 1, 2].permutations := by
  have hE : ∀ e ∈ [((0 : Nat), (1 : Nat)), (1, 2), (0, 2)], e.1 ≤ e.2 ∧ e.2 < 3 := by decide
  have hval2 : validColorings 3 (2 : Int).toNat [(0, 1), (1, 2), (0, 2)] = [] := by decide
  have hval3 : validColorings 3 (3 : Int).toNat [(0, 1), (1, 2), (0, 2)]
      = [[2, 1, 0], [1, 2, 0], [2, 0, 1], [0, 2, 1], [1, 0, 2], [0, 1, 2]] := by decide
  obtain ⟨r, c1, hrun, _, _, _, _, hiff⟩ := fresh_isColorable oracle hO 3 _ hE 2
  have hr : r = false := by
    cases r with
    | false => rfl
    | true => exact absurd hval2 (hiff.1 rfl)
  subst hr
  obtain ⟨r3, c2, hrun3, _, _, _, _, hiff3⟩ := fresh_isColorable oracle hO 3 _ hE 3
  have hr3 : r3 = true := hiff3.2 (by rw [hval3]; simp)
  subst hr3
  obtain ⟨c3, first, hrun4, hperm, _⟩ :=
    fresh_two_calls oracle hO 3 _ hE 3 fuel allColoring (by rw [hval3]; exact hfuel)
  rw [hval3] at hperm
  refine ⟨_, c1, c2, c3, first, Graph.build_eq 3 _ hE, hrun, hrun3, hrun4, ?_, ?_⟩
  · have := hperm.length_eq
    simpa using this
  · have hp : ([0, 1, 2] : List Nat).permutations
        = [[0, 1, 2], [1, 0, 2], [2, 1, 0], [1, 2, 0], [2, 0, 1], [0, 2, 1]] := by
      simp [List.permutations, List.permutationsAux, List.permutationsAux.rec,
        List.permutationsAux2]
    rw [hp]
    refine hperm.trans ?_
    decide

/-- Witness of C15: exhaustive search as the oracle, fuel 7. -/
theorem triangle_colorings_witness :
    OracleCorrect bruteForce ∧ 6 < 7 ∧
    ∃ (g : Graph) (c1 c2 c3 : Coloring) (appended : List (List lbool)),
      Graph.build (3 : Nat) (castEdges [(0, 1), (1, 2), (0, 2)]) = some g ∧
      (Coloring.new g 2).isColorable bruteForce = some (false, c1) ∧
      (Coloring.new g 3).isColorable bruteForce = some (true, c2) ∧
      (Coloring.new g 3).givemeAllColoring bruteForce 7 [] = some (c3, [] ++ appended) ∧
      appended.length = 6 ∧
      (appended.map (decode 3 3)).Perm [0, 1, 2].permutations :=
  ⟨bruteForce_correct, by decide,
    triangle_colorings bruteForce bruteForce_correct 7 (by decide) []⟩

/-! ## Class `Graph`: edge insertion -/

theorem Graph.addEdge_eq_outcome (g : Graph) (n1 n2 : Int) :
    g.addEdge n1 n2 = (g.addEdgeOutcome n1 n2).toOption := by
  unfold Graph.addEdge Graph.addEdgeOutcome
  by_cases h1 : n1 < g.m_nNumberOfNodes ∧ n2 < g.m_nNumberOfNodes
  · by_cases h2 : n1 ≤ n2
    · simp only [h1, h2, and_self, not_true_eq_false, if_false]
      by_cases h3 : n1 < 0 ∨ (g.m_graph.length : Int) ≤ n1
      · by_cases h4 : 0 ≤ n1 + 1
        · simp only [h3, h4, if_true]
          split <;> rfl
        · simp only [h3, h4, if_true, if_false]
          rfl
      · simp only [h3, if_false]
        split <;> rfl
    · simp only [h1, h2, and_self, not_true_eq_false, not_false_eq_true, if_true, if_false]
      rfl
  · simp only [h1, not_false_eq_true, if_true]
    rfl

theorem Graph.addEdgeOutcome_assertFailed_iff (g : Graph) (n1 n2 : Int) :
    g.addEdgeOutcome n1 n2 = AddEdgeOutcome.assertFailed ↔
      ¬ (n1 < g.m_nNumberOfNodes ∧ n2 < g.m_nNumberOfNodes ∧ n1 ≤ n2) := by
  unfold Graph.addEdgeOutcome
  by_cases h1 : n1 < g.m_nNumberOfNodes ∧ n2 < g.m_nNumberOfNodes
  · by_cases h2 : n1 ≤ n2
    · simp only [h1, h2, and_self, not_true_eq_false, if_false, iff_false]
      by_cases h3 : n1 < 0 ∨ (g.m_graph.length : Int) ≤ n1
      · by_cases h4 : 0 ≤ n1 + 1
        · simp only [h3, h4, if_true]
          split <;> simp
        · simp only [h3, h4, if_true, if_false]
          simp
      · simp only [h3, if_false]
        split <;> simp
    · simp [h1, h2]
  · have : ¬ (n1 < g.m_nNumberOfNodes ∧ n2 < g.m_nNumberOfNodes ∧ n1 ≤ n2) :=
      fun h => h1 ⟨h.1, h.2.1⟩
    simp [h1, this]

theorem Graph.addEdge_valid (g : Graph) (a b : Int)
    (hlen : (g.m_graph.length : Int) = g.m_nNumberOfNodes) (h0 : 0 ≤ a) (hab : a ≤ b)
    (hb : b < g.m_nNumberOfNodes) :
    g.addEdge a b
      = some ⟨g.m_nNumberOfNodes, g.m_graph.modify (fun l => l ++ [b]) a.toNat⟩ := by
  have h1 : a < g.m_nNumberOfNodes ∧ b < g.m_nNumberOfNodes := ⟨by omega, hb⟩
  have h3 : ¬ (a < 0 ∨ (g.m_graph.length : Int) ≤ a) := by omega
  have h4 : 0 ≤ a ∧ a.toNat < g.m_graph.length := by omega
  unfold Graph.addEdge
  simp only [h1, hab, and_self, not_true_eq_false, if_false, if_neg h3, if_pos h4]

theorem Graph.addEdge_isSome_iff (g : Graph) (a b : Int)
    (hlen : (g.m_graph.length : Int) = g.m_nNumberOfNodes) :
    (g.addEdge a b).isSome = true ↔ 0 ≤ a ∧ a ≤ b ∧ b < g.m_nNumberOfNodes := by
  constructor
  · intro h
    by_cases h1 : a < g.m_nNumberOfNodes ∧ b < g.m_nNumberOfNodes
    · by_cases h2 : a ≤ b
      · refine ⟨?_, h2, h1.2⟩
        by_contra hneg
        have h3 : a < 0 ∨ (g.m_graph.length : Int) ≤ a := Or.inl (by omega)
        have h5 : ¬ (0 ≤ a ∧ a.toNat < (Graph.resize g.m_graph (a + 1).toNat).length) :=
          fun hh => hneg hh.1
        unfold Graph.addEdge at h
        simp only [h1, h2, and_self, not_true_eq_false, if_false, if_pos h3] at h
        by_cases h4 : 0 ≤ a + 1
        · simp only [h4, if_true, if_neg h5] at h
          simp at h
        · simp only [h4, if_false] at h
          simp at h
      · unfold Graph.addEdge at h
        simp [h1, h2] at h
    · unfold Graph.addEdge at h
      simp [h1] at h
  · rintro ⟨h0, hab, hb⟩
    rw [Graph.addEdge_valid g a b hlen h0 hab hb]
    rfl

/-- C16, evaluated at `Graph g(3); g.addEdge(-1, 0)`: none of the `assert`s fails (no
assertion bounds `n1` from below), the unsigned test `m_graph.size() <= n1` sends the call
into `resize(n1+1) = resize(0)`, which empties the adjacency vector, and `m_graph[n1]`
is then an access outside the vector; the call is not rejected and the graph is not left
unchanged. -/
theorem addEdge_negative_index_not_rejected :
    Graph.new 3 = some ⟨3, [[], [], []]⟩ ∧
    Graph.addEdgeOutcome ⟨3, [[], [], []]⟩ (-1) 0 = AddEdgeOutcome.outOfBounds ⟨3, []⟩ ∧
    Graph.addEdgeOutcome ⟨3, [[], [], []]⟩ (-1) 0 ≠ AddEdgeOutcome.assertFailed ∧
    Graph.addEdgeOutcome ⟨3, [[], [], []]⟩ 2 1 = AddEdgeOutcome.assertFailed ∧
    Graph.addEdgeOutcome ⟨3, [[], [], []]⟩ 1 3 = AddEdgeOutcome.assertFailed := by
  decide

theorem Graph.getEdgesForNode_new (N : Int) (g : Graph) (hg : Graph.new N = some g)
    (n : Int) (h0 : 0 ≤ n) (hn : n < N) : g.getEdgesForNode n = some [] := by
  unfold Graph.new at hg
  have hN : 0 ≤ N := by omega
  rw [if_pos hN] at hg
  cases hg
  have hc : n < N ∧ (0 ≤ n ∧ n < ((List.replicate N.toNat ([] : List Int)).length : Int)) := by
    rw [List.length_replicate]; omega
  unfold Graph.getEdgesForNode
  simp only [hc, and_self, if_true]
  rw [List.getElem?_replicate]
  have : n.toNat < N.toNat := by omega
  simp [this]

/-- C17: for `0 ≤ a ≤ b < nodeCount`, on a graph whose adjacency vector has `nodeCount`
entries, `addEdge(a, b)` returns; afterwards `getEdgesForNode(a)` is the previous list
with `b` appended, `getEdgesForNode(n)` is unchanged for every other `n`, and
`getNumberOfNodes()` is unchanged. A newly constructed `Graph(nodeCount)` has an empty
list for every node. -/
theorem addEdge_appends_and_frames (g : Graph) (a b : Int)
    (hlen : (g.m_graph.length : Int) = g.m_nNumberOfNodes) (h0 : 0 ≤ a) (hab : a ≤ b)
    (hb : b < g.m_nNumberOfNodes) :
    ∃ (g' : Graph) (old : List Int),
      g.getEdgesForNode a = some old ∧
      g.addEdge a b = some g' ∧
      g'.getEdgesForNode a = some (old ++ [b]) ∧
      (∀ n : Int, n ≠ a → g'.getEdgesForNode n = g.getEdgesForNode n) ∧
      g'.getNumberOfNodes = g.getNumberOfNodes ∧
      (∀ (N : Int), 0 ≤ N → ∃ g0 : Graph, Graph.new N = some g0 ∧
        g0.getNumberOfNodes = N ∧
        ∀ n : Int, 0 ≤ n → n < N → g0.getEdgesForNode n = some []) := by
  have ha : a.toNat < g.m_graph.length := by omega
  have hc : a < g.m_nNumberOfNodes ∧ (0 ≤ a ∧ a < (g.m_graph.length : Int)) := by omega
  refine ⟨_, g.m_graph[a.toNat], ?_, Graph.addEdge_valid g a b hlen h0 hab hb, ?_, ?_, rfl, ?_⟩
  · unfold Graph.getEdgesForNode
    rw [if_pos hc, List.getElem?_eq_getElem ha]
  · unfold Graph.getEdgesForNode
    have hc2 : a < g.m_nNumberOfNodes ∧
        (0 ≤ a ∧ a < ((g.m_graph.modify (fun l => l ++ [b]) a.toNat).length : Int)) := by
      rw [List.length_modify]; exact hc
    simp only [hc2, and_self, if_true]
    rw [List.getElem?_modify_eq, List.getElem?_eq_getElem ha]
    rfl
  · intro n hne
    unfold Graph.getEdgesForNode
    simp only [List.length_modify]
    by_cases hcn : n < g.m_nNumberOfNodes ∧ (0 ≤ n ∧ n < (g.m_graph.length : Int))
    · rw [if_pos hcn, if_pos hcn]
      have : a.toNat ≠ n.toNat := by omega
      rw [List.getElem?_modify_ne _ _ this]
    · rw [if_neg hcn, if_neg hcn]
  · intro N hN
    have hnew : Graph.new N = some ⟨N, List.replicate N.toNat []⟩ := by
      unfold Graph.new
      rw [if_pos hN]
    exact ⟨_, hnew, rfl, fun n h0 hn => Graph.getEdgesForNode_new N _ hnew n h0 hn⟩

/-- Witness of C17: `addEdge(0, 2)` on the graph of three nodes holding the edge (0,1). -/
theorem addEdge_appends_and_frames_witness :
    (((Graph.mk 3 [[1], [], []]).m_graph.length : Nat) : Int)
      = (Graph.mk 3 [[1], [], []]).m_nNumberOfNodes ∧
    (0 : Int) ≤ 0 ∧ (0 : Int) ≤ 2 ∧ (2 : Int) < (Graph.mk 3 [[1], [], []]).m_nNumberOfNodes ∧
    ∃ (g' : Graph) (old : List Int),
      (Graph.mk 3 [[1], [], []]).getEdgesForNode 0 = some old ∧
      (Graph.mk 3 [[1], [], []]).addEdge 0 2 = some g' ∧
      g'.getEdgesForNode 0 = some (old ++ [2]) ∧
      (∀ n : Int, n ≠ 0 → g'.getEdgesForNode n = (Graph.mk 3 [[1], [], []]).getEdgesForNode n) ∧
      g'.getNumberOfNodes = (Graph.mk 3 [[1], [], []]).getNumberOfNodes ∧
      (∀ (N : Int), 0 ≤ N → ∃ g0 : Graph, Graph.new N = some g0 ∧
        g0.getNumberOfNodes = N ∧
        ∀ n : Int, 0 ≤ n → n < N → g0.getEdgesForNode n = some []) :=
  ⟨by decide, by decide, by decide, by decide,
    addEdge_appends_and_frames (Graph.mk 3 [[1], [], []]) 0 2 (by decide) (by decide)
      (by decide) (by decide)⟩

/-- C18: in every graph reached from `Graph(nodeCount)`, `nodeCount ≥ 0`, by calls
`addEdge(a, b)` with `0 ≤ a ≤ b < nodeCount`, the adjacency vector has exactly
`nodeCount` entries and every value stored in the list of node `a` lies in
`[a, nodeCount)`; at each call the test `m_graph.size() <= n1` of the resize branch is
false. -/
theorem graph_representation_invariant (N : Nat) (edges : List (Nat × Nat))
    (hE : ∀ e ∈ edges, e.1 ≤ e.2 ∧ e.2 < N) :
    ∃ g : Graph, Graph.build N (castEdges edges) = some g ∧
      g.m_nNumberOfNodes = N ∧ g.m_graph.length = N ∧
      (∀ (a : Nat) (l : List Int), g.m_graph[a]? = some l →
        ∀ v ∈ l, (a : Int) ≤ v ∧ v < N) ∧
      (∀ (pre post : List (Nat × Nat)) (e : Nat × Nat), edges = pre ++ e :: post →
        ∃ g' : Graph, Graph.build N (castEdges pre) = some g' ∧ g'.m_graph.length = N ∧
          ¬ ((e.1 : Int) < 0 ∨ (g'.m_graph.length : Int) ≤ e.1)) := by
  refine ⟨_, Graph.build_eq N edges hE, rfl, by simp [adjOf_length], ?_, ?_⟩
  · intro a l hl v hv
    have hrep := adjOf_represents N edges hE
    simp only [List.getElem?_map, Option.map_eq_some'] at hl
    obtain ⟨l0, hl0, rfl⟩ := hl
    obtain ⟨b, hb, rfl⟩ := List.mem_map.1 hv
    have hmem : b ∈ (adjOf N edges).getD a [] := by
      simp [List.getD_eq_getElem?_getD, hl0, hb]
    have := hrep.2.2.2 a b hmem
    simp only [Int.ofNat_eq_coe]
    omega
  · intro pre post e he
    have hpre : ∀ x ∈ pre, x.1 ≤ x.2 ∧ x.2 < N := by
      intro x hx
      exact hE x (by rw [he]; exact List.mem_append_left _ hx)
    have hemem := hE e (by rw [he]; simp)
    refine ⟨_, Graph.build_eq N pre hpre, by simp [adjOf_length], ?_⟩
    simp only [List.length_map, adjOf_length]
    omega

/-- Witness of C18: the four-cycle of `main.cc`. -/
theorem graph_representation_invariant_witness :
    (∀ e ∈ [((0 : Nat), (1 : Nat)), (1, 2), (2, 3), (0, 3)], e.1 ≤ e.2 ∧ e.2 < 4) ∧
    ∃ g : Graph, Graph.build (4 : Nat) (castEdges [(0, 1), (1, 2), (2, 3), (0, 3)]) = some g ∧
      g.m_nNumberOfNodes = (4 : Nat) ∧ g.m_graph.length = 4 ∧
      (∀ (a : Nat) (l : List Int), g.m_graph[a]? = some l →
        ∀ v ∈ l, (a : Int) ≤ v ∧ v < (4 : Nat)) ∧
      (∀ (pre post : List (Nat × Nat)) (e : Nat × Nat),
        [((0 : Nat), (1 : Nat)), (1, 2), (2, 3), (0, 3)] = pre ++ e :: post →
        ∃ g' : Graph, Graph.build (4 : Nat) (castEdges pre) = some g' ∧ g'.m_graph.length = 4 ∧
          ¬ ((e.1 : Int) < 0 ∨ (g'.m_graph.length : Int) ≤ e.1)) :=
  ⟨by decide, graph_representation_invariant 4 [(0, 1), (1, 2), (2, 3), (0, 3)] (by decide)⟩

/-- C20, evaluated at `numNodes = 1` (a value `rand() = 10` gives `10 % 10 + 1 = 1`): the
divisor `numNodes * (numNodes - 1) / 2` is zero, so the remainder that picks the number
of edges is undefined. -/
theorem numEdges_divisor_zero :
    drawNumNodes 10 = 1 ∧ numEdgesDivisor 1 = 0 ∧
    (∀ r : Int, drawNumEdges (drawNumNodes 10) r = none) ∧
    (1 : Int) ≤ drawNumNodes 10 ∧ drawNumNodes 10 ≤ 10 := by
  refine ⟨by decide, by decide, ?_, by decide, by decide⟩
  intro r
  have h1 : drawNumNodes 10 = 1 := by decide
  have h2 : numEdgesDivisor 1 = 0 := by decide
  unfold drawNumEdges
  rw [h1, h2]
  rfl

theorem numEdgesDivisor_eq_zero_iff (numNodes : Int) (h1 : 1 ≤ numNodes) (h2 : numNodes ≤ 10) :
    numEdgesDivisor numNodes = 0 ↔ numNodes = 1 := by
  have : numNodes = 1 ∨ numNodes = 2 ∨ numNodes = 3 ∨ numNodes = 4 ∨ numNodes = 5 ∨
      numNodes = 6 ∨ numNodes = 7 ∨ numNodes = 8 ∨ numNodes = 9 ∨ numNodes = 10 := by omega
  rcases this with h | h | h | h | h | h | h | h | h | h <;> subst h <;> decide

/-! ## Assertions and variable range -/

theorem machine_getNodeHasColorVar_eq (c : Coloring) (N n col : Nat)
    (hN : c.m_graph.m_nNumberOfNodes = N) (hn : n < N) (hc : col < c.m_nNumberOfColors.toNat) :
    Machine.getNodeHasColorVar c n col = some (int32 (int32 ((col : Int) * (N : Int)) + (n : Int))) := by
  have h1 : (n : Int) < c.m_graph.getNumberOfNodes := by
    simp [Graph.getNumberOfNodes, hN, hn]
  have h2 : (col : Int) < c.m_nNumberOfColors := by omega
  simp [Machine.getNodeHasColorVar, h1, h2]
  simp [Graph.getNumberOfNodes, hN]

theorem machine_atLeastOne_fold (c : Coloring) (N n : Nat)
    (hN : c.m_graph.m_nNumberOfNodes = N) (hn : n < N) (l : List Nat)
    (hl : ∀ x ∈ l, x < c.m_nNumberOfColors.toNat) : ∀ acc : List Lit,
    (l.map Int.ofNat).foldlM
      (fun clause color => do
        let v ← Machine.getNodeHasColorVar c n color
        pure (clause ++ [mkLit v false])) acc
      = some (acc ++ l.map (fun col => machineLit N n col false)) := by
  induction l with
  | nil => intro acc; simp
  | cons x xs ih =>
    intro acc
    have hx := machine_getNodeHasColorVar_eq c N n x hN hn (hl x (List.mem_cons_self _ _))
    simp only [List.map_cons, List.foldlM_cons]
    have := ih (fun y hy => hl y (List.mem_cons_of_mem _ hy)) (acc ++ [mkLit (int32 (int32 ((x : Int) * (N : Int)) + (n : Int))) false])
    simp only [Int.ofNat_eq_coe, Option.pure_def, Option.bind_eq_bind] at this ⊢
    simp only [hx, Option.some_bind]
    rw [this]
    simp [machineLit]

theorem machine_atMostOne_inner_fold (N n c1 : Nat) (l : List Nat) : ∀ st : Coloring,
    st.m_graph.m_nNumberOfNodes = N → n < N → c1 < st.m_nNumberOfColors.toNat →
    (∀ x ∈ l, x < st.m_nNumberOfColors.toNat) →
    (l.map Int.ofNat).foldlM
      (fun (st : Coloring) color2 => do
        let v1 ← Machine.getNodeHasColorVar st n c1
        let v2 ← Machine.getNodeHasColorVar st n color2
        pure { st with m_solver := st.m_solver.addClause [mkLit v1 true, mkLit v2 true] }) st
      = some (st.addClauses (l.map (fun c2 => [machineLit N n c1 true, machineLit N n c2 true]))) := by
  induction l with
  | nil => intro st _ _ _ _; simp [Coloring.addClauses_nil]
  | cons x xs ih =>
    intro st hN hn hc hl
    have hx := machine_getNodeHasColorVar_eq st N n x hN hn (hl x (List.mem_cons_self _ _))
    have h1 := machine_getNodeHasColorVar_eq st N n c1 hN hn hc
    simp only [List.map_cons, List.foldlM_cons]
    have := ih (st.addClauses [[mkLit (int32 (int32 ((c1 : Int) * (N : Int)) + (n : Int))) true, mkLit (int32 (int32 ((x : Int) * (N : Int)) + (n : Int))) true]])
      hN hn hc (fun y hy => hl y (List.mem_cons_of_mem _ hy))
    simp only [Int.ofNat_eq_coe, Option.pure_def, Option.bind_eq_bind, Coloring.addClause_eq] at this ⊢
    simp only [hx, h1, Option.some_bind]
    rw [this, Coloring.addClauses_addClauses]
    simp [machineLit]

theorem machine_atMostOne_outer_fold (N n : Nat) (l : List Nat) : ∀ st : Coloring,
    st.m_graph.m_nNumberOfNodes = N → n < N →
    (∀ x ∈ l, x < st.m_nNumberOfColors.toNat) →
    (l.map Int.ofNat).foldlM
      (fun (st : Coloring) color1 => (intRange color1).foldlM
        (fun (st : Coloring) color2 => do
          let v1 ← Machine.getNodeHasColorVar st n color1
          let v2 ← Machine.getNodeHasColorVar st n color2
          pure { st with m_solver := st.m_solver.addClause [mkLit v1 true, mkLit v2 true] })
        st) st
      = some (st.addClauses (l.flatMap (fun c1 => (List.range c1).map (fun c2 =>
          [machineLit N n c1 true, machineLit N n c2 true])))) := by
  induction l with
  | nil => intro st _ _ _; simp [Coloring.addClauses_nil]
  | cons x xs ih =>
    intro st hN hn hl
    have hxK := hl x (List.mem_cons_self _ _)
    have hin := machine_atMostOne_inner_fold N n x (List.range x) st hN hn hxK
      (fun y hy => lt_trans (List.mem_range.1 hy) hxK)
    simp only [List.map_cons, List.foldlM_cons, Int.ofNat_eq_coe, intRange_natCast] at hin ⊢
    rw [hin]
    have := ih (st.addClauses ((List.range x).map (fun c2 =>
      [machineLit N n x true, machineLit N n c2 true]))) hN hn
      (fun y hy => hl y (List.mem_cons_of_mem _ hy))
    simp only [Int.ofNat_eq_coe, intRange_natCast] at this
    simp only [Option.bind_eq_bind, Option.some_bind] at this ⊢
    rw [this, Coloring.addClauses_addClauses]
    simp

theorem machine_addOneColorConstraints_eq (c : Coloring) (N n : Nat)
    (hN : c.m_graph.m_nNumberOfNodes = N) (hn : n < N) :
    Machine.addOneColorConstraints c n
      = some (c.addClauses (machineOneColorClauses N c.m_nNumberOfColors.toNat n)) := by
  have h1 : (n : Int) < c.m_graph.getNumberOfNodes := by
    simp [Graph.getNumberOfNodes, hN, hn]
  have hA := machine_atLeastOne_fold c N n hN hn (List.range c.m_nNumberOfColors.toNat)
    (fun x hx => List.mem_range.1 hx) []
  have hB := machine_atMostOne_outer_fold N n (List.range c.m_nNumberOfColors.toNat)
    (c.addClauses [machineAtLeastOneClause N c.m_nNumberOfColors.toNat n]) hN hn
    (fun x hx => List.mem_range.1 hx)
  unfold Machine.addOneColorConstraints
  simp only [h1, not_true_eq_false, if_false, intRange_eq, Coloring.addClause_eq] at hA hB ⊢
  simp only [Option.pure_def, Option.bind_eq_bind] at hA hB ⊢
  rw [hA]
  simp only [Option.some_bind, List.nil_append]
  simp only [Coloring.addClauses_colors, machineAtLeastOneClause] at hB ⊢
  rw [hB, Coloring.addClauses_addClauses]
  rfl

theorem machine_addEdgeColoringConstraints_fold (N a b : Nat) (l : List Nat) :
    ∀ st : Coloring, st.m_graph.m_nNumberOfNodes = N → a < N → b < N →
    (∀ x ∈ l, x < st.m_nNumberOfColors.toNat) →
    (l.map Int.ofNat).foldlM
      (fun (st : Coloring) color => do
        let v1 ← Machine.getNodeHasColorVar st a color
        let v2 ← Machine.getNodeHasColorVar st b color
        pure { st with m_solver := st.m_solver.addClause [mkLit v1 true, mkLit v2 true] }) st
      = some (st.addClauses (l.map (fun col => [machineLit N a col true, machineLit N b col true]))) := by
  induction l with
  | nil => intro st _ _ _ _; simp [Coloring.addClauses_nil]
  | cons x xs ih =>
    intro st hN ha hb hl
    have hx := hl x (List.mem_cons_self _ _)
    have h1 := machine_getNodeHasColorVar_eq st N a x hN ha hx
    have h2 := machine_getNodeHasColorVar_eq st N b x hN hb hx
    have := ih (st.addClauses [[mkLit (int32 (int32 ((x : Int) * (N : Int)) + (a : Int))) true, mkLit (int32 (int32 ((x : Int) * (N : Int)) + (b : Int))) true]])
      hN ha hb (fun y hy => hl y (List.mem_cons_of_mem _ hy))
    simp only [List.map_cons, List.foldlM_cons]
    simp only [Int.ofNat_eq_coe, Option.pure_def, Option.bind_eq_bind, Coloring.addClause_eq] at this ⊢
    simp only [h1, h2, Option.some_bind]
    rw [this, Coloring.addClauses_addClauses]
    simp [machineLit]

theorem machine_addEdgeColoringConstraints_eq (c : Coloring) (N a b : Nat)
    (hN : c.m_graph.m_nNumberOfNodes = N) (hab : a ≤ b) (hb : b < N) :
    Machine.addEdgeColoringConstraints c a b
      = some (c.addClauses (machineEdgeClauses N c.m_nNumberOfColors.toNat a b)) := by
  have ha : a < N := lt_of_le_of_lt hab hb
  have h1 : (a : Int) < c.m_graph.getNumberOfNodes ∧ (b : Int) < c.m_graph.getNumberOfNodes := by
    simp [Graph.getNumberOfNodes, hN, ha, hb]
  have h2 : (a : Int) ≤ b := by exact_mod_cast hab
  have hF := machine_addEdgeColoringConstraints_fold N a b (List.range c.m_nNumberOfColors.toNat)
    c hN ha hb (fun x hx => List.mem_range.1 hx)
  unfold Machine.addEdgeColoringConstraints
  simp only [h1, h2, and_self, not_true_eq_false, if_false, intRange_eq]
  exact hF

theorem machine_edges_fold (N n : Nat) (l : List Nat) : ∀ st : Coloring,
    st.m_graph.m_nNumberOfNodes = N → (∀ b ∈ l, n ≤ b ∧ b < N) →
    (l.map Int.ofNat).foldlM
      (fun (st2 : Coloring) adjacent => Machine.addEdgeColoringConstraints st2 n adjacent) st
      = some (st.addClauses (l.flatMap (fun b => machineEdgeClauses N st.m_nNumberOfColors.toNat n b))) := by
  induction l with
  | nil => intro st _ _; simp [Coloring.addClauses_nil]
  | cons x xs ih =>
    intro st hN hl
    have hx := hl x (List.mem_cons_self _ _)
    have h1 := machine_addEdgeColoringConstraints_eq st N n x hN hx.1 hx.2
    have := ih (st.addClauses (machineEdgeClauses N st.m_nNumberOfColors.toNat n x)) hN
      (fun y hy => hl y (List.mem_cons_of_mem _ hy))
    simp only [List.map_cons, List.foldlM_cons, Int.ofNat_eq_coe] at this ⊢
    rw [h1]
    simp only [Option.bind_eq_bind, Option.some_bind]
    rw [this, Coloring.addClauses_addClauses]
    simp [Coloring.addClauses_colors]

theorem machine_sweep_fold (N : Nat) (adj : List (List Nat)) (l : List Nat) : ∀ st : Coloring,
    st.m_graph.Represents N adj → (∀ n ∈ l, n < N) →
    (l.map Int.ofNat).foldlM
      (fun (st : Coloring) n => do
        let st1 ← Machine.addOneColorConstraints st n
        let edges ← st1.m_graph.getEdgesForNode n
        edges.foldlM (fun st2 adjacent => Machine.addEdgeColoringConstraints st2 n adjacent) st1) st
      = some (st.addClauses (l.flatMap (fun n =>
          machineOneColorClauses N st.m_nNumberOfColors.toNat n ++
            (adj.getD n []).flatMap (fun b => machineEdgeClauses N st.m_nNumberOfColors.toNat n b)))) := by
  induction l with
  | nil => intro st _ _; simp [Coloring.addClauses_nil]
  | cons x xs ih =>
    intro st hg hl
    have hx := hl x (List.mem_cons_self _ _)
    have h1 := machine_addOneColorConstraints_eq st N x hg.1 hx
    have h2 := Graph.getEdgesForNode_eq st.m_graph N adj hg x hx
    have h3 := machine_edges_fold N x (adj.getD x [])
      (st.addClauses (machineOneColorClauses N st.m_nNumberOfColors.toNat x)) hg.1
      (fun b hb => hg.2.2.2 x b hb)
    have := ih ((st.addClauses (machineOneColorClauses N st.m_nNumberOfColors.toNat x)).addClauses
      ((adj.getD x []).flatMap (fun b => machineEdgeClauses N st.m_nNumberOfColors.toNat x b))) hg
      (fun y hy => hl y (List.mem_cons_of_mem _ hy))
    simp only [List.map_cons, List.foldlM_cons, Int.ofNat_eq_coe, Coloring.addClauses_colors,
      Coloring.addClauses_graph, Option.bind_eq_bind] at this h1 h2 h3 ⊢
    rw [h1]
    simp only [Option.some_bind, Coloring.addClauses_graph]
    rw [h2]
    simp only [Option.some_bind]
    rw [h3]
    simp only [Option.some_bind]
    rw [this, Coloring.addClauses_addClauses, Coloring.addClauses_addClauses]
    simp

theorem machine_addAllConstraints_eq (c : Coloring) (N : Nat) (adj : List (List Nat))
    (hg : c.m_graph.Represents N adj) :
    Machine.addAllConstraints c
      = some (c.addClauses (machineBaseClauses N c.m_nNumberOfColors.toNat adj)) := by
  have h := machine_sweep_fold N adj (List.range N) c hg (fun n hn => List.mem_range.1 hn)
  unfold Machine.addAllConstraints
  simp only [Graph.getNumberOfNodes, hg.1, intRange_natCast]
  exact h

theorem int32_of_range (x : Int) (h0 : 0 ≤ x) (h1 : x < 2147483648) : int32 x = x := by
  unfold int32
  omega

theorem index_lt (N K n c : Nat) (hn : n < N) (hc : c < K) : c * N + n < N * K := by
  calc c * N + n < c * N + N := by omega
    _ = (c + 1) * N := by ring
    _ ≤ K * N := Nat.mul_le_mul_right N hc
    _ = N * K := Nat.mul_comm K N

theorem machineIndex_eq (N K n c : Nat) (hB : N * K ≤ 2147483648) (hn : n < N) (hc : c < K) :
    int32 (int32 ((c : Int) * (N : Int)) + (n : Int)) = ((c * N + n : Nat) : Int) := by
  have hi := index_lt N K n c hn hc
  have h1 : c * N + n < 2147483648 := lt_of_lt_of_le hi hB
  have h2 : c * N < 2147483648 := by omega
  have e1 : int32 ((c : Int) * (N : Int)) = ((c * N : Nat) : Int) := by
    rw [← Nat.cast_mul]
    exact int32_of_range _ (Int.natCast_nonneg _) (by exact_mod_cast h2)
  rw [e1, ← Nat.cast_add]
  exact int32_of_range _ (Int.natCast_nonneg _) (by exact_mod_cast h1)

theorem machineLit_eq (N K n c : Nat) (s : Bool) (hB : N * K ≤ 2147483648) (hn : n < N)
    (hc : c < K) : machineLit N n c s = nodeLit N n c s := by
  unfold machineLit nodeLit
  rw [machineIndex_eq N K n c hB hn hc]

theorem machineOneColorClauses_eq (N K n : Nat) (hB : N * K ≤ 2147483648) (hn : n < N) :
    machineOneColorClauses N K n = oneColorClauses N K n := by
  have e1 : machineAtLeastOneClause N K n = atLeastOneClause N K n := by
    unfold machineAtLeastOneClause atLeastOneClause
    apply List.map_congr_left
    intro c hc
    exact machineLit_eq N K n c false hB hn (List.mem_range.1 hc)
  have e2 : machineAtMostOneClauses N K n = atMostOneClauses N K n := by
    unfold machineAtMostOneClauses atMostOneClauses
    apply List.flatMap_congr
    intro c1 h1
    apply List.map_congr_left
    intro c2 h2
    have h1 := List.mem_range.1 h1
    have h2 := List.mem_range.1 h2
    rw [machineLit_eq N K n c1 true hB hn h1, machineLit_eq N K n c2 true hB hn (lt_trans h2 h1)]
  unfold machineOneColorClauses oneColorClauses
  rw [e1, e2]

theorem machineEdgeClauses_eq (N K a b : Nat) (hB : N * K ≤ 2147483648) (ha : a < N)
    (hb : b < N) : machineEdgeClauses N K a b = edgeClauses N K a b := by
  unfold machineEdgeClauses edgeClauses
  apply List.map_congr_left
  intro c hc
  have hc := List.mem_range.1 hc
  rw [machineLit_eq N K a c true hB ha hc, machineLit_eq N K b c true hB hb hc]

theorem machineBaseClauses_eq (N K : Nat) (adj : List (List Nat)) (hB : N * K ≤ 2147483648)
    (hadj : ∀ n b, b ∈ adj.getD n [] → n ≤ b ∧ b < N) :
    machineBaseClauses N K adj = baseClauses N K adj := by
  unfold machineBaseClauses baseClauses
  apply List.flatMap_congr
  intro n hn
  have hn := List.mem_range.1 hn
  have e2 : (adj.getD n []).flatMap (fun b => machineEdgeClauses N K n b)
      = (adj.getD n []).flatMap (fun b => edgeClauses N K n b) :=
    List.flatMap_congr (fun b hb => machineEdgeClauses_eq N K n b hB hn (hadj n b hb).2)
  rw [machineOneColorClauses_eq N K n hB hn, e2]

theorem oneColorClauses_census (N K n : Nat) (hn : n < N) :
    (oneColorClauses N K n).count
        ((List.range K).map (fun col => mkLit ((col * N + n : Nat) : Int) false)) = 1 ∧
    (∀ c1 c2, c1 < K → c2 < c1 →
      (oneColorClauses N K n).count
          [mkLit ((c1 * N + n : Nat) : Int) true, mkLit ((c2 * N + n : Nat) : Int) true]
        + (oneColorClauses N K n).count
          [mkLit ((c2 * N + n : Nat) : Int) true, mkLit ((c1 * N + n : Nat) : Int) true]
        = 1) ∧
    (oneColorClauses N K n).length = 1 + K * (K - 1) / 2 := by
  have hpos : 0 < N := by omega
  refine ⟨?_, ?_, ?_⟩
  · show (oneColorClauses N K n).count (atLeastOneClause N K n) = 1
    unfold oneColorClauses
    rw [List.count_cons_self, List.count_eq_zero_of_not_mem (atLeastOne_not_mem_atMostOne N K n)]
  · intro c1 c2 h1 h2
    show (oneColorClauses N K n).count [nodeLit N n c1 true, nodeLit N n c2 true]
      + (oneColorClauses N K n).count [nodeLit N n c2 true, nodeLit N n c1 true] = 1
    have hne1 : [nodeLit N n c1 true, nodeLit N n c2 true] ≠ atLeastOneClause N K n := by
      intro heq
      exact atLeastOne_not_mem_atMostOne N K n
        (heq ▸ (mem_atMostOneClauses N K n _).2 ⟨c1, h1, c2, h2, rfl⟩)
    have hnot : [nodeLit N n c2 true, nodeLit N n c1 true] ∉ atMostOneClauses N K n := by
      intro hm
      obtain ⟨d1, _, d2, hd2, heq⟩ := (mem_atMostOneClauses N K n _).1 hm
      simp only [List.cons.injEq, and_true] at heq
      have e1 := (nodeLit_inj N n c2 d1 true true hpos heq.1).1
      have e2 := (nodeLit_inj N n c1 d2 true true hpos heq.2).1
      omega
    have hne2 : [nodeLit N n c2 true, nodeLit N n c1 true] ≠ atLeastOneClause N K n := by
      intro heq
      have : (atLeastOneClause N K n).length = 2 := by rw [← heq]; rfl
      have hK : K = 2 := by simpa [atLeastOneClause] using this
      subst hK
      have := congrArg List.head? heq
      simp [atLeastOneClause, List.range_succ_eq_map, nodeLit, mkLit] at this
    have e1 : (atMostOneClauses N K n).count [nodeLit N n c1 true, nodeLit N n c2 true] = 1 := by
      convert List.count_eq_one_of_mem (atMostOneClauses_nodup N K n hpos)
        ((mem_atMostOneClauses N K n _).2 ⟨c1, h1, c2, h2, rfl⟩)
    unfold oneColorClauses
    rw [List.count_cons_of_ne hne1, List.count_cons_of_ne hne2, e1,
      List.count_eq_zero_of_not_mem hnot]
  · simp only [oneColorClauses, List.length_cons, atMostOneClauses_length]
    omega

/-- C7, as stated, fails: with `nodeCount = 2^30 + 1`, `k = 2` and node `2^30 - 1` the
variable of color 1 is `1 * nodeCount + node = 2^31`; computed in `int` the index wraps,
and the clauses asserted are on variable `-2147483648`. The clause of the two positive
literals `variable(n, 0)`, `variable(n, 1)` is not among them. -/
theorem addOneColorConstraints_overflow_counterexample :
    ∃ (g : Graph) (c' : Coloring), Graph.new 1073741825 = some g ∧
      (1073741823 : Int) < g.getNumberOfNodes ∧
      Machine.addOneColorConstraints (Coloring.new g 2) 1073741823 = some c' ∧
      c'.m_solver.clauses
        = [[mkLit 1073741823 false, mkLit (-2147483648) false],
           [mkLit (-2147483648) true, mkLit 1073741823 true]] ∧
      c'.m_solver.clauses.count
        ((List.range 2).map (fun col => mkLit ((col * 1073741825 + 1073741823 : Nat) : Int) false))
        = 0 := by
  have h := machine_addOneColorConstraints_eq
    (Coloring.new ⟨1073741825, List.replicate (1073741825 : Int).toNat []⟩ 2)
    1073741825 1073741823 rfl (by decide)
  have hk : (Coloring.new ⟨1073741825, List.replicate (1073741825 : Int).toNat []⟩
      2).m_nNumberOfColors.toNat = 2 := rfl
  rw [hk] at h
  have hl : machineOneColorClauses 1073741825 2 1073741823
      = [[mkLit 1073741823 false, mkLit (-2147483648) false],
         [mkLit (-2147483648) true, mkLit 1073741823 true]] := by decide
  have hcl : ((Coloring.new ⟨1073741825, List.replicate (1073741825 : Int).toNat []⟩
      2).addClauses (machineOneColorClauses 1073741825 2 1073741823)).m_solver.clauses
      = [[mkLit 1073741823 false, mkLit (-2147483648) false],
         [mkLit (-2147483648) true, mkLit 1073741823 true]] := by
    show (Coloring.new _ 2).m_solver.clauses ++ _ = _
    rw [Coloring.new_clauses, hl]
    rfl
  refine ⟨⟨1073741825, List.replicate (1073741825 : Int).toNat []⟩, _, rfl, by decide, h,
    hcl, ?_⟩
  rw [hcl]
  decide

/-- C7, amended: for `n < nodeCount`, `k ≥ 0` and `nodeCount * k ≤ 2^31`,
`addOneColorConstraints(n)` asserts exactly one clause of the `k` positive literals of the
node, exactly one clause `¬ variable(n, c1) ∨ ¬ variable(n, c2)` for each unordered pair
of distinct colors, and nothing else (`1 + k * (k - 1) / 2` clauses in all); an assignment
satisfies them exactly when exactly one of the node's `k` color variables is true. -/
theorem addOneColorConstraints_clauses_in_int_range (c : Coloring) (N K n : Nat)
    (hN : c.m_graph.m_nNumberOfNodes = N) (hK : c.m_nNumberOfColors = K) (hn : n < N)
    (hB : N * K ≤ 2147483648) :
    ∃ (c' : Coloring) (added : List (List Lit)),
      Machine.addOneColorConstraints c n = some c' ∧
      c'.m_solver.clauses = c.m_solver.clauses ++ added ∧
      c'.m_graph = c.m_graph ∧ c'.m_nNumberOfColors = c.m_nNumberOfColors ∧
      c'.m_solver.nVars = c.m_solver.nVars ∧
      added.count ((List.range K).map (fun col => mkLit ((col * N + n : Nat) : Int) false))
        = 1 ∧
      (∀ c1 c2, c1 < K → c2 < c1 →
        added.count [mkLit ((c1 * N + n : Nat) : Int) true, mkLit ((c2 * N + n : Nat) : Int) true]
          + added.count
            [mkLit ((c2 * N + n : Nat) : Int) true, mkLit ((c1 * N + n : Nat) : Int) true]
          = 1) ∧
      added.length = 1 + K * (K - 1) / 2 ∧
      ∀ a : List Bool, satisfies a added = true ↔
        ∃! col, col < K ∧ a.getD (col * N + n) false = true := by
  have hK2 : c.m_nNumberOfColors.toNat = K := by rw [hK]; exact Int.toNat_ofNat K
  have h := machine_addOneColorConstraints_eq c N n hN hn
  rw [hK2, machineOneColorClauses_eq N K n hB hn] at h
  obtain ⟨h1, h2, h3⟩ := oneColorClauses_census N K n hn
  exact ⟨_, oneColorClauses N K n, h, rfl, rfl, rfl, rfl, h1, h2, h3,
    fun a => satisfies_oneColor a N K n⟩

/-- Witness of the amended C7: node 1 of a three-node graph with three colors. -/
theorem addOneColorConstraints_clauses_in_int_range_witness :
    (Coloring.new (Graph.mk 3 [[], [], []]) 3).m_graph.m_nNumberOfNodes = (3 : Nat) ∧
    (Coloring.new (Graph.mk 3 [[], [], []]) 3).m_nNumberOfColors = (3 : Nat) ∧ 1 < 3 ∧
    3 * 3 ≤ 2147483648 ∧
    ∃ (c' : Coloring) (added : List (List Lit)),
      Machine.addOneColorConstraints (Coloring.new (Graph.mk 3 [[], [], []]) 3) (1 : Nat)
        = some c' ∧
      c'.m_solver.clauses = (Coloring.new (Graph.mk 3 [[], [], []]) 3).m_solver.clauses ++ added ∧
      c'.m_graph = (Coloring.new (Graph.mk 3 [[], [], []]) 3).m_graph ∧
      c'.m_nNumberOfColors = (Coloring.new (Graph.mk 3 [[], [], []]) 3).m_nNumberOfColors ∧
      c'.m_solver.nVars = (Coloring.new (Graph.mk 3 [[], [], []]) 3).m_solver.nVars ∧
      added.count ((List.range 3).map (fun col => mkLit ((col * 3 + 1 : Nat) : Int) false))
        = 1 ∧
      (∀ c1 c2, c1 < 3 → c2 < c1 →
        added.count [mkLit ((c1 * 3 + 1 : Nat) : Int) true, mkLit ((c2 * 3 + 1 : Nat) : Int) true]
          + added.count
            [mkLit ((c2 * 3 + 1 : Nat) : Int) true, mkLit ((c1 * 3 + 1 : Nat) : Int) true]
          = 1) ∧
      added.length = 1 + 3 * (3 - 1) / 2 ∧
      ∀ a : List Bool, satisfies a added = true ↔
        ∃! col, col < 3 ∧ a.getD (col * 3 + 1) false = true :=
  ⟨rfl, rfl, by decide, by decide,
    addOneColorConstraints_clauses_in_int_range (Coloring.new (Graph.mk 3 [[], [], []]) 3)
      3 3 1 rfl rfl (by decide) (by decide)⟩

/-- C8, as stated, fails: with `nodeCount = 2^30 + 1`, `k = 2` and the stored edge
`(2^30 - 1, 2^30)` the variables of color 1 are `2^31` and `2^31 + 1`; computed in `int`
the indices wrap, and the clause asserted for color 1 is on the variables `-2147483648`
and `-2147483647`, not the clause `¬ variable(a, 1) ∨ ¬ variable(b, 1)`. -/
theorem addEdgeColoringConstraints_overflow_counterexample :
    ∃ (g : Graph) (c' : Coloring),
      Graph.build (1073741825 : Nat) (castEdges [(1073741823, 1073741824)]) = some g ∧
      Machine.addEdgeColoringConstraints (Coloring.new g 2) (1073741823 : Nat)
        (1073741824 : Nat) = some c' ∧
      c'.m_solver.clauses
        = [[mkLit 1073741823 true, mkLit 1073741824 true],
           [mkLit (-2147483648) true, mkLit (-2147483647) true]] ∧
      c'.m_solver.clauses ≠ (List.range 2).map (fun col =>
        [mkLit ((col * 1073741825 + 1073741823 : Nat) : Int) true,
          mkLit ((col * 1073741825 + 1073741824 : Nat) : Int) true]) := by
  have hE : ∀ e ∈ [((1073741823 : Nat), (1073741824 : Nat))],
      e.1 ≤ e.2 ∧ e.2 < 1073741825 := by decide
  have h := machine_addEdgeColoringConstraints_eq
    (Coloring.new ⟨(1073741825 : Nat),
      (adjOf 1073741825 [(1073741823, 1073741824)]).map (List.map Int.ofNat)⟩ 2)
    1073741825 1073741823 1073741824 rfl (by decide) (by decide)
  have hk : (Coloring.new ⟨(1073741825 : Nat),
      (adjOf 1073741825 [(1073741823, 1073741824)]).map (List.map Int.ofNat)⟩
      2).m_nNumberOfColors.toNat = 2 := rfl
  rw [hk] at h
  have hl : machineEdgeClauses 1073741825 2 1073741823 1073741824
      = [[mkLit 1073741823 true, mkLit 1073741824 true],
         [mkLit (-2147483648) true, mkLit (-2147483647) true]] := by decide
  have hcl : ((Coloring.new ⟨(1073741825 : Nat),
      (adjOf 1073741825 [(1073741823, 1073741824)]).map (List.map Int.ofNat)⟩ 2).addClauses
        (machineEdgeClauses 1073741825 2 1073741823 1073741824)).m_solver.clauses
      = [[mkLit 1073741823 true, mkLit 1073741824 true],
         [mkLit (-2147483648) true, mkLit (-2147483647) true]] := by
    show (Coloring.new _ 2).m_solver.clauses ++ _ = _
    rw [Coloring.new_clauses, hl]
    rfl
  refine ⟨_, _, Graph.build_eq 1073741825 _ hE, h, hcl, ?_⟩
  rw [hcl]
  decide

/-- C8, amended: for every stored edge `(a, b)` and every color count with
`nodeCount * k ≤ 2^31`, `addEdgeColoringConstraints(a, b)` asserts, for each color `c` in
`[0, k)`, exactly the clause `¬ variable(a, c) ∨ ¬ variable(b, c)` and nothing else; the
generation sweep asserts that block once per entry of the adjacency lists (once per
`addEdge` call); and an assignment satisfies the edge clauses exactly when no stored edge
has both endpoints holding the same color. -/
theorem edge_constraints_in_int_range (N : Nat) (edges : List (Nat × Nat))
    (hE : ∀ e ∈ edges, e.1 ≤ e.2 ∧ e.2 < N) :
    ∃ g : Graph, Graph.build N (castEdges edges) = some g ∧
      (∀ c : Coloring, c.m_graph = g → N * c.m_nNumberOfColors.toNat ≤ 2147483648 →
        (∀ e ∈ edges, ∃ c' : Coloring,
          Machine.addEdgeColoringConstraints c e.1 e.2 = some c' ∧
          c'.m_solver.clauses = c.m_solver.clauses ++
            (List.range c.m_nNumberOfColors.toNat).map (fun col =>
              [mkLit ((col * N + e.1 : Nat) : Int) true,
                mkLit ((col * N + e.2 : Nat) : Int) true]) ∧
          c'.m_graph = c.m_graph ∧ c'.m_nNumberOfColors = c.m_nNumberOfColors ∧
          c'.m_solver.nVars = c.m_solver.nVars) ∧
        (∃ c' : Coloring, Machine.addAllConstraints c = some c' ∧
          c'.m_solver.clauses = c.m_solver.clauses ++ (List.range N).flatMap (fun n =>
            oneColorClauses N c.m_nNumberOfColors.toNat n ++
              (edges.filter (fun e => e.1 = n)).flatMap (fun e =>
                (List.range c.m_nNumberOfColors.toNat).map (fun col =>
                  [mkLit ((col * N + e.1 : Nat) : Int) true,
                    mkLit ((col * N + e.2 : Nat) : Int) true]))))) ∧
      (∀ (K : Nat) (a : List Bool),
        satisfies a ((List.range N).flatMap (fun n =>
          (edges.filter (fun e => e.1 = n)).flatMap (fun e => (List.range K).map (fun col =>
            [mkLit ((col * N + e.1 : Nat) : Int) true,
              mkLit ((col * N + e.2 : Nat) : Int) true])))) = true ↔
        ∀ e ∈ edges, ∀ col, col < K →
          ¬ (a.getD (col * N + e.1) false = true ∧ a.getD (col * N + e.2) false = true)) := by
  refine ⟨_, Graph.build_eq N edges hE, ?_, ?_⟩
  · intro c hg hB
    have hrep : c.m_graph.Represents N (adjOf N edges) := by
      rw [hg]; exact adjOf_represents N edges hE
    constructor
    · intro e he
      have hb := hE e he
      have h := machine_addEdgeColoringConstraints_eq c N e.1 e.2 hrep.1 hb.1 hb.2
      rw [machineEdgeClauses_eq N _ e.1 e.2 hB (lt_of_le_of_lt hb.1 hb.2) hb.2] at h
      exact ⟨_, h, rfl, rfl, rfl, rfl⟩
    · have h := machine_addAllConstraints_eq c N (adjOf N edges) hrep
      rw [machineBaseClauses_eq N _ (adjOf N edges) hB hrep.2.2.2] at h
      refine ⟨_, h, ?_⟩
      rw [← baseClauses_adjOf]
      rfl
  · intro K a
    exact satisfies_edgePart a N K edges hE

/-- Witness of the amended C8: the four-cycle of `main.cc`. -/
theorem edge_constraints_in_int_range_witness :
    (∀ e ∈ [((0 : Nat), (1 : Nat)), (1, 2), (2, 3), (0, 3)], e.1 ≤ e.2 ∧ e.2 < 4) ∧
    ∃ g : Graph, Graph.build (4 : Nat) (castEdges [(0, 1), (1, 2), (2, 3), (0, 3)]) = some g ∧
      (∀ c : Coloring, c.m_graph = g → 4 * c.m_nNumberOfColors.toNat ≤ 2147483648 →
        (∀ e ∈ [((0 : Nat), (1 : Nat)), (1, 2), (2, 3), (0, 3)], ∃ c' : Coloring,
          Machine.addEdgeColoringConstraints c e.1 e.2 = some c' ∧
          c'.m_solver.clauses = c.m_solver.clauses ++
            (List.range c.m_nNumberOfColors.toNat).map (fun col =>
              [mkLit ((col * 4 + e.1 : Nat) : Int) true,
                mkLit ((col * 4 + e.2 : Nat) : Int) true]) ∧
          c'.m_graph = c.m_graph ∧ c'.m_nNumberOfColors = c.m_nNumberOfColors ∧
          c'.m_solver.nVars = c.m_solver.nVars) ∧
        (∃ c' : Coloring, Machine.addAllConstraints c = some c' ∧
          c'.m_solver.clauses = c.m_solver.clauses ++ (List.range 4).flatMap (fun n =>
            oneColorClauses 4 c.m_nNumberOfColors.toNat n ++
              ([((0 : Nat), (1 : Nat)), (1, 2), (2, 3), (0, 3)].filter
                (fun e => e.1 = n)).flatMap (fun e =>
                (List.range c.m_nNumberOfColors.toNat).map (fun col =>
                  [mkLit ((col * 4 + e.1 : Nat) : Int) true,
                    mkLit ((col * 4 + e.2 : Nat) : Int) true]))))) ∧
      (∀ (K : Nat) (a : List Bool),
        satisfies a ((List.range 4).flatMap (fun n =>
          ([((0 : Nat), (1 : Nat)), (1, 2), (2, 3), (0, 3)].filter
            (fun e => e.1 = n)).flatMap (fun e => (List.range K).map (fun col =>
            [mkLit ((col * 4 + e.1 : Nat) : Int) true,
              mkLit ((col * 4 + e.2 : Nat) : Int) true])))) = true ↔
        ∀ e ∈ [((0 : Nat), (1 : Nat)), (1, 2), (2, 3), (0, 3)], ∀ col, col < K →
          ¬ (a.getD (col * 4 + e.1) false = true ∧ a.getD (col * 4 + e.2) false = true)) :=
  ⟨by decide, edge_constraints_in_int_range 4 [(0, 1), (1, 2), (2, 3), (0, 3)] (by decide)⟩

end Hw1
